import Mathlib

/-!
Verification of the indexed reader core (`src/indexed.rs`): the sorted-interval
matcher `range_included`, lazy block-index construction, and the two-pass
`read_ways_and_deps` dependency-resolution algorithm.

The embedding models the container as a list of blobs; a blob carries its
declared type and the (deterministic) outcome of locating/decoding it at its
offset, so that I/O and decode failures are represented as `Except` errors.
Machine integers: element ids are Rust `i64` and only compared (never
arithmetically combined), so they are modelled as `Int`; slice indices are
`usize` modelled as `Nat`, with Rust's `saturating_sub(1)` being `Nat`
subtraction.
-/

namespace Osmpbf

/-- Error values propagated by I/O and decode failures (`error::Error` in the
source; only its identity matters here). -/
abbrev Err := String

/-- A way: id, tags and the ordered list of referenced node ids
(`Way::refs()` in the source). -/
structure Way where
  id : Int
  tags : List (String × String)
  refs : List Int
deriving DecidableEq, Repr

/-- A plain node record (`Node`); only the id is consulted by the core. -/
structure Node where
  id : Int
deriving DecidableEq, Repr

/-- One entry of a dense-node batch (`DenseNode`); only the id is consulted. -/
structure DenseNode where
  id : Int
deriving DecidableEq, Repr

/-- A primitive group (`PrimitiveGroup`): ways, nodes, dense nodes.  Relations
are never consulted by this core and are omitted from the view. -/
structure PrimitiveGroup where
  ways : List Way
  nodes : List Node
  dense_nodes : List DenseNode
deriving DecidableEq, Repr

/-- A decoded primitive block (`PrimitiveBlock`): its groups, in order. -/
structure PrimitiveBlock where
  groups : List PrimitiveGroup
deriving DecidableEq, Repr

/-- The declared type tag of a blob (`BlobType`). -/
inductive BlobType where
  | OsmHeader : BlobType
  | OsmData : BlobType
  | Unknown : Int → BlobType
deriving DecidableEq, Repr

instance {ε α : Type} [DecidableEq ε] [DecidableEq α] : DecidableEq (Except ε α) := fun
  | .ok a, .ok b =>
    if h : a = b then .isTrue (by rw [h]) else .isFalse (by intro hh; cases hh; exact h rfl)
  | .ok _, .error _ => .isFalse (by intro h; cases h)
  | .error _, .ok _ => .isFalse (by intro h; cases h)
  | .error e, .error f =>
    if h : e = f then .isTrue (by rw [h]) else .isFalse (by intro hh; cases hh; exact h rfl)

/-- One blob of the container: its declared type, and the outcome of seeking to
its offset and decoding it (`Blob::to_primitiveblock`), which is deterministic
for a fixed container. -/
structure Blob where
  btype : BlobType
  decode : Except Err PrimitiveBlock
deriving DecidableEq, Repr

/-- Coarse blob classification stored in the index (`SimpleBlobType`). -/
inductive SimpleBlobType where
  | Header : SimpleBlobType
  | Primitive : SimpleBlobType
  | Unknown : SimpleBlobType
deriving DecidableEq, Repr

/-- The classification performed in `create_index`. -/
def simpleType : BlobType → SimpleBlobType
  | .OsmHeader => .Header
  | .OsmData => .Primitive
  | .Unknown _ => .Unknown

/-- The `IdRanges` record: per-kind optional inclusive id range. -/
structure IdRanges where
  node_ids : Option (Int × Int)
  way_ids : Option (Int × Int)
  relation_ids : Option (Int × Int)
deriving DecidableEq, Repr

/-- The `BlobInfo` record: one block descriptor of the index. -/
structure BlobInfo where
  offset : Nat
  blob_type : SimpleBlobType
  id_ranges : Option IdRanges
deriving DecidableEq, Repr

/-- An element handed to the `element_callback` (`Element`); relations never
occur in this core's output. -/
inductive Element where
  | way : Way → Element
  | node : Node → Element
  | dense_node : DenseNode → Element
deriving DecidableEq, Repr

/-! ## Binary search (`slice::binary_search`)

The loop of Rust's `binary_search` on a sorted slice, with the interval width
as structural fuel: each iteration strictly shrinks `right - left`, so
`s.length` steps always suffice. -/

/-- The binary-search loop: on `Ok` the index of a matching element, on `Err`
the insertion point. -/
def bsGo (s : List Int) (x : Int) : Nat → Nat → Nat → Except Nat Nat
  | 0, left, _ => .error left
  | fuel + 1, left, right =>
    if left < right then
      let mid := left + (right - left) / 2
      let e := s.getD mid 0
      if e < x then bsGo s x fuel (mid + 1) right
      else if x < e then bsGo s x fuel left mid
      else .ok mid
    else .error left

/-- The call `sorted_slice.binary_search(&x)`. -/
def binary_search (s : List Int) (x : Int) : Except Nat Nat :=
  bsGo s x s.length 0 s.length

/-- The function `range_included` from the source: given the inclusive range `[lo, hi]` and a
sorted slice, the index span of the slice that needs to be checked, or `none`
when no value of the slice can lie in the range.  `Nat` subtraction plays the
role of `usize::saturating_sub`. -/
def range_included (lo hi : Int) (sorted_slice : List Int) : Option (Nat × Nat) :=
  match binary_search sorted_slice lo, binary_search sorted_slice hi with
  | .ok s, .ok e => some (s, e)
  | .ok s, .error e => some (s, e - 1)
  | .error s, .ok e => some (s, e)
  | .error s, .error e => if s = e then none else some (s, e - 1)

/-! ## The indexed reader -/

/-- Seek to `off` and decode the blob found there: `reader.seek(offset)` plus
`reader.next().ok_or(UnexpectedEof)??` plus `blob.to_primitiveblock()?`.
A missing blob is the `could not read next blob` I/O error; otherwise the
blob's own (deterministic) decode outcome. -/
def fetchBlock (c : List Blob) (off : Nat) : Except Err PrimitiveBlock :=
  match c.get? off with
  | none => .error "could not read next blob"
  | some blob => blob.decode

/-- The reader: the underlying container and the lazily built block index. -/
structure IndexedReader where
  container : List Blob
  index : List BlobInfo
deriving DecidableEq, Repr

/-- The constructor `IndexedReader::new`: wrap the source; the index starts empty. -/
def IndexedReader.new (c : List Blob) : IndexedReader :=
  { container := c, index := [] }

/-- The forward scan of `create_index`, carrying the running byte offset
(block positions stand in for byte offsets). -/
def createIndexGo (off : Nat) : List Blob → List BlobInfo
  | [] => []
  | b :: rest => { offset := off, blob_type := simpleType b.btype, id_ranges := none }
      :: createIndexGo (off + 1) rest

/-- The scan `create_index`: one descriptor per blob, in container order, every
`id_ranges` starting as `none`. -/
def create_index (c : List Blob) : List BlobInfo :=
  createIndexGo 0 c

/-! ### Pass 1 -/

/-- The ways of a group that pass the filter (`group.ways()` + `filter`). -/
def groupAcceptedWays (filter : Way → Bool) (g : PrimitiveGroup) : List Way :=
  g.ways.filter filter

/-- All accepted ways of a block, groups in order. -/
def blockAcceptedWays (filter : Way → Bool) (b : PrimitiveBlock) : List Way :=
  b.groups.flatMap (groupAcceptedWays filter)

/-- The `Element::Way` callbacks fired while pass 1 visits one block. -/
def blockWayElems (filter : Way → Bool) (b : PrimitiveBlock) : List Element :=
  (blockAcceptedWays filter b).map .way

/-- The node ids pushed onto `node_ids` while pass 1 visits one block:
every reference of every accepted way, duplicates kept. -/
def blockCollectedRefs (filter : Way → Bool) (b : PrimitiveBlock) : List Int :=
  (blockAcceptedWays filter b).flatMap Way.refs

/-- The node ids scanned for the min/max computation: plain node records, then
dense-node entries, per group. -/
def groupNodeIds (g : PrimitiveGroup) : List Int :=
  g.nodes.map Node.id ++ g.dense_nodes.map DenseNode.id

/-- All point-record ids of a block, in scan order. -/
def blockNodeIds (b : PrimitiveBlock) : List Int :=
  b.groups.flatMap groupNodeIds

/-- One step of the `check_min_max` closure. -/
def checkMinMax (mm : Option Int × Option Int) (id : Int) : Option Int × Option Int :=
  (some (match mm.1 with | none => id | some x => min x id),
   some (match mm.2 with | none => id | some x => max x id))

/-- The `(min_node_id, max_node_id)` pair computed while visiting a block. -/
def blockMinMax (b : PrimitiveBlock) : Option Int × Option Int :=
  (blockNodeIds b).foldl checkMinMax (none, none)

/-- The descriptor update at the end of a pass-1 visit: if both min and max
exist, overwrite `id_ranges` with a fresh node range; otherwise leave the
descriptor unchanged. -/
def updateInfo (info : BlobInfo) (b : PrimitiveBlock) : BlobInfo :=
  match blockMinMax b with
  | (some mn, some mx) =>
    { info with id_ranges := some { node_ids := some (mn, mx), way_ids := none, relation_ids := none } }
  | _ => info

/-- The outcome of pass 1: the (partially) updated index, the accumulated node
ids, the elements emitted so far, and the first error if one occurred. -/
structure Pass1Out where
  index : List BlobInfo
  node_ids : List Int
  emitted : List Element
  err : Option Err
deriving DecidableEq, Repr

/-- Pass 1 over the remaining descriptors: decode every `Primitive` block,
emit accepted ways, collect their references, record per-block min/max node
ids.  An error aborts immediately, leaving the remaining descriptors (the
failing one included) untouched. -/
def pass1 (c : List Blob) (filter : Way → Bool) : List BlobInfo → Pass1Out
  | [] => { index := [], node_ids := [], emitted := [], err := none }
  | info :: rest =>
    if info.blob_type = .Primitive then
      match fetchBlock c info.offset with
      | .error e => { index := info :: rest, node_ids := [], emitted := [], err := some e }
      | .ok b =>
        let out := pass1 c filter rest
        { index := updateInfo info b :: out.index,
          node_ids := blockCollectedRefs filter b ++ out.node_ids,
          emitted := blockWayElems filter b ++ out.emitted,
          err := out.err }
    else
      let out := pass1 c filter rest
      { out with index := info :: out.index }

/-! ### Sorting and deduplication of the working id set -/

/-- Rust `Vec::dedup` on the sorted id list: drop adjacent duplicates. -/
def dedupSorted : List Int → List Int
  | [] => []
  | x :: rest =>
    match rest with
    | [] => [x]
    | y :: _ => if x = y then dedupSorted rest else x :: dedupSorted rest

/-- The calls `node_ids.sort_unstable(); node_ids.dedup()`: the sorted output of a
comparison sort is the unique sorted permutation, so any correct sort (here
insertion sort) is an exact model. -/
def sortDedup (l : List Int) : List Int :=
  dedupSorted (l.insertionSort (· ≤ ·))

/-! ### Pass 2 -/

/-- The slice `&node_ids.as_slice()[i..=j]` (total model via `drop`/`take`). -/
def subsliceOf (l : List Int) (i j : Nat) : List Int :=
  (l.drop i).take (j + 1 - i)

/-- The test `ids_subslice.binary_search(&id).is_ok()`. -/
def found (sub : List Int) (x : Int) : Bool :=
  match binary_search sub x with
  | .ok _ => true
  | .error _ => false

/-- The point elements pass 2 emits from one group: nodes whose id is found in
the matched subslice, then dense nodes likewise. -/
def groupPointElems (sub : List Int) (g : PrimitiveGroup) : List Element :=
  (g.nodes.filter fun n => found sub n.id).map .node ++
    (g.dense_nodes.filter fun d => found sub d.id).map .dense_node

/-- The point elements pass 2 emits from one block. -/
def blockPointElems (sub : List Int) (b : PrimitiveBlock) : List Element :=
  b.groups.flatMap (groupPointElems sub)

/-- The outcome of pass 2: emitted elements, the offsets of the blocks it
actually decoded, and the first error if one occurred. -/
structure Pass2Out where
  emitted : List Element
  decoded : List Nat
  err : Option Err
deriving DecidableEq, Repr

/-- Pass 2: for every `Primitive` descriptor carrying a node-id range, consult
`range_included`; skip the block without decoding when it returns `none`,
otherwise decode and emit the point records found in the matched subslice. -/
def pass2 (c : List Blob) (node_ids : List Int) : List BlobInfo → Pass2Out
  | [] => { emitted := [], decoded := [], err := none }
  | info :: rest =>
    if info.blob_type = .Primitive then
      match info.id_ranges.bind IdRanges.node_ids with
      | none => pass2 c node_ids rest
      | some (lo, hi) =>
        match range_included lo hi node_ids with
        | none => pass2 c node_ids rest
        | some (i, j) =>
          match fetchBlock c info.offset with
          | .error e => { emitted := [], decoded := [], err := some e }
          | .ok b =>
            let out := pass2 c node_ids rest
            { emitted := blockPointElems (subsliceOf node_ids i j) b ++ out.emitted,
              decoded := info.offset :: out.decoded,
              err := out.err }
    else pass2 c node_ids rest

/-! ### The full query -/

/-- The index a query works on: the existing one, or a fresh build when the
index is still empty (`if self.index.is_empty() { self.create_index()?; }`). -/
def usedIndex (r : IndexedReader) : List BlobInfo :=
  if r.index.isEmpty then create_index r.container else r.index

/-- The outcome of `read_ways_and_deps`: the reader afterwards, the callback
sequence, the offsets decoded by pass 2, and the propagated error if any. -/
structure ReadOut where
  reader : IndexedReader
  emitted : List Element
  decoded2 : List Nat
  err : Option Err
deriving DecidableEq, Repr

/-- The query `read_ways_and_deps`: build the index if empty, run pass 1 (aborting on
error), sort and dedup the collected ids, run pass 2. -/
def read_ways_and_deps (r : IndexedReader) (filter : Way → Bool) : ReadOut :=
  let p1 := pass1 r.container filter (usedIndex r)
  match p1.err with
  | some e =>
    { reader := { container := r.container, index := p1.index },
      emitted := p1.emitted, decoded2 := [], err := some e }
  | none =>
    let ids := sortDedup p1.node_ids
    let p2 := pass2 r.container ids p1.index
    { reader := { container := r.container, index := p1.index },
      emitted := p1.emitted ++ p2.emitted, decoded2 := p2.decoded, err := p2.err }

/-- Reader states reachable from a fresh reader over container `c` by running
queries. -/
inductive Reachable (c : List Blob) : IndexedReader → Prop
  | base : Reachable c (IndexedReader.new c)
  | step (r : IndexedReader) (f : Way → Bool) :
      Reachable c r → Reachable c (read_ways_and_deps r f).reader

/-! ## Correctness of the binary search -/

theorem getD_eq_get {l : List Int} {n : Nat} (h : n < l.length) :
    l.getD n 0 = l.get ⟨n, h⟩ := by
  rw [List.getD_eq_getElem?_getD, List.getElem?_eq_getElem h]
  rfl

theorem sorted_getD_mono {s : List Int} (hs : s.Sorted (· ≤ ·)) {i j : Nat}
    (hij : i ≤ j) (hj : j < s.length) : s.getD i 0 ≤ s.getD j 0 := by
  rcases Nat.eq_or_lt_of_le hij with h | h
  · subst h; exact le_refl _
  · have hi : i < s.length := lt_trans h hj
    rw [getD_eq_get hi, getD_eq_get hj]
    exact List.pairwise_iff_get.mp hs ⟨i, hi⟩ ⟨j, hj⟩ h

theorem strictSorted_getD_mono {s : List Int} (hs : s.Pairwise (· < ·)) {i j : Nat}
    (hij : i < j) (hj : j < s.length) : s.getD i 0 < s.getD j 0 := by
  have hi : i < s.length := lt_trans hij hj
  rw [getD_eq_get hi, getD_eq_get hj]
  exact List.pairwise_iff_get.mp hs ⟨i, hi⟩ ⟨j, hj⟩ hij

theorem getD_mem {l : List Int} {n : Nat} (h : n < l.length) : l.getD n 0 ∈ l := by
  rw [getD_eq_get h]; exact List.get_mem l n h

theorem mem_getD {l : List Int} {a : Int} (h : a ∈ l) :
    ∃ n, n < l.length ∧ l.getD n 0 = a := by
  obtain ⟨n, hn⟩ := List.mem_iff_get.mp h
  refine ⟨n.1, n.2, ?_⟩
  rw [getD_eq_get n.2]
  exact hn

/-- If the binary-search loop answers `Ok i`, then `i` is a valid index holding
the searched value (no sortedness needed). -/
theorem bsGo_ok {s : List Int} {x : Int} :
    ∀ fuel left right i, right ≤ s.length →
      bsGo s x fuel left right = .ok i → i < s.length ∧ s.getD i 0 = x := by
  intro fuel
  induction fuel with
  | zero => intro left right i _ h; simp [bsGo] at h
  | succ fuel ih =>
    intro left right i hr h
    rw [bsGo] at h
    by_cases hlr : left < right
    · simp only [if_pos hlr] at h
      have hmid : left + (right - left) / 2 < right := by omega
      by_cases h1 : s.getD (left + (right - left) / 2) 0 < x
      · rw [if_pos h1] at h
        exact ih _ _ _ hr h
      · rw [if_neg h1] at h
        by_cases h2 : x < s.getD (left + (right - left) / 2) 0
        · rw [if_pos h2] at h
          exact ih _ _ _ (le_trans (le_of_lt hmid) hr) h
        · rw [if_neg h2] at h
          have := Except.ok.inj h
          subst this
          exact ⟨lt_of_lt_of_le hmid hr, le_antisymm (not_lt.mp h2) (not_lt.mp h1)⟩
    · simp only [if_neg hlr] at h
      cases h

/-- If the binary-search loop answers `Err ℓ` on a sorted slice, every element
strictly below index `ℓ` is smaller than the searched value and every element
at or above `ℓ` is larger. -/
theorem bsGo_error {s : List Int} {x : Int} (hs : s.Sorted (· ≤ ·)) :
    ∀ fuel left right ℓ, right ≤ s.length → left ≤ right → right - left ≤ fuel →
      (∀ k, k < left → k < s.length → s.getD k 0 < x) →
      (∀ k, right ≤ k → k < s.length → x < s.getD k 0) →
      bsGo s x fuel left right = .error ℓ →
      ℓ ≤ s.length ∧ (∀ k, k < ℓ → k < s.length → s.getD k 0 < x) ∧
        (∀ k, ℓ ≤ k → k < s.length → x < s.getD k 0) := by
  intro fuel
  induction fuel with
  | zero =>
    intro left right ℓ hr hlr hfuel hleft hright h
    have : left = right := by omega
    subst this
    rw [bsGo] at h
    have := Except.error.inj h
    subst this
    exact ⟨le_trans hlr hr, hleft, fun k hk => hright k (by omega)⟩
  | succ fuel ih =>
    intro left right ℓ hr hlr hfuel hleft hright h
    rw [bsGo] at h
    by_cases hltr : left < right
    · simp only [if_pos hltr] at h
      have hml : left ≤ left + (right - left) / 2 := Nat.le_add_right _ _
      have hmr : left + (right - left) / 2 < right := by omega
      have hmlen : left + (right - left) / 2 < s.length := lt_of_lt_of_le hmr hr
      by_cases h1 : s.getD (left + (right - left) / 2) 0 < x
      · rw [if_pos h1] at h
        refine ih (left + (right - left) / 2 + 1) right ℓ hr (by omega) (by omega) ?_ hright h
        intro k hk hklen
        exact lt_of_le_of_lt (sorted_getD_mono hs (by omega) hmlen) h1
      · rw [if_neg h1] at h
        by_cases h2 : x < s.getD (left + (right - left) / 2) 0
        · rw [if_pos h2] at h
          refine ih left (left + (right - left) / 2) ℓ (le_of_lt hmlen) (by omega) (by omega)
            hleft ?_ h
          intro k hk hklen
          exact lt_of_lt_of_le h2 (sorted_getD_mono hs hk hklen)
        · rw [if_neg h2] at h
          cases h
    · simp only [if_neg hltr] at h
      have : left = right := by omega
      subst this
      have := Except.error.inj h
      subst this
      exact ⟨le_trans hlr hr, hleft, fun k hk => hright k (by omega)⟩

theorem binary_search_ok {s : List Int} {x : Int} {i : Nat}
    (h : binary_search s x = .ok i) : i < s.length ∧ s.getD i 0 = x :=
  bsGo_ok s.length 0 s.length i (le_refl _) h

theorem binary_search_error {s : List Int} {x : Int} {ℓ : Nat}
    (hs : s.Sorted (· ≤ ·)) (h : binary_search s x = .error ℓ) :
    ℓ ≤ s.length ∧ (∀ k, k < ℓ → k < s.length → s.getD k 0 < x) ∧
      (∀ k, ℓ ≤ k → k < s.length → x < s.getD k 0) :=
  bsGo_error hs s.length 0 s.length ℓ (le_refl _) (Nat.zero_le _) (le_refl _)
    (fun k hk _ => absurd hk (Nat.not_lt_zero k)) (fun k hk hk2 => absurd hk2 (by omega)) h

theorem binary_search_error_not_mem {s : List Int} {x : Int} {ℓ : Nat}
    (hs : s.Sorted (· ≤ ·)) (h : binary_search s x = .error ℓ) : x ∉ s := by
  intro hmem
  obtain ⟨n, hn, hget⟩ := mem_getD hmem
  obtain ⟨-, hlo, hhi⟩ := binary_search_error hs h
  by_cases hc : n < ℓ
  · exact absurd hget (ne_of_lt (hlo n hc hn))
  · exact absurd hget (ne_of_gt (hhi n (by omega) hn))

theorem binary_search_isOk_of_mem {s : List Int} {x : Int}
    (hs : s.Sorted (· ≤ ·)) (hx : x ∈ s) : ∃ i, binary_search s x = .ok i := by
  cases h : binary_search s x with
  | ok i => exact ⟨i, rfl⟩
  | error ℓ => exact absurd hx (binary_search_error_not_mem hs h)

/-- A strictly sorted list is in particular weakly sorted. -/
theorem strict_sorted_le {s : List Int} (hs : s.Pairwise (· < ·)) :
    s.Sorted (· ≤ ·) :=
  hs.imp le_of_lt

/-- On a strictly sorted list, a successful search pins the index down exactly:
`i` is the unique index holding `x`. -/
theorem binary_search_ok_unique {s : List Int} {x : Int} {i k : Nat}
    (hs : s.Pairwise (· < ·)) (h : binary_search s x = .ok i)
    (hk : k < s.length) (hkx : s.getD k 0 = x) : k = i := by
  obtain ⟨hi, hix⟩ := binary_search_ok h
  by_contra hne
  rcases Nat.lt_or_ge k i with hlt | hge
  · exact absurd (hkx.trans hix.symm) (ne_of_lt (strictSorted_getD_mono hs hlt hi))
  · have : i < k := by omega
    exact absurd (hix.trans hkx.symm) (ne_of_lt (strictSorted_getD_mono hs this hk))

/-! ## Correctness of `range_included` -/

theorem subsliceOf_getD {l : List Int} {i j m : Nat} (h : m < j + 1 - i) :
    (subsliceOf l i j).getD m 0 = l.getD (i + m) 0 := by
  unfold subsliceOf
  rw [List.getD_eq_getElem?_getD, List.getD_eq_getElem?_getD,
    List.getElem?_take_of_lt h, List.getElem?_drop]

theorem subsliceOf_length {l : List Int} {i j : Nat} :
    (subsliceOf l i j).length = min (j + 1 - i) (l.length - i) := by
  simp [subsliceOf]

theorem mem_subsliceOf {l : List Int} {i j : Nat} {x : Int} :
    x ∈ subsliceOf l i j ↔ ∃ k, i ≤ k ∧ k ≤ j ∧ k < l.length ∧ l.getD k 0 = x := by
  constructor
  · intro hx
    obtain ⟨m, hm, hget⟩ := mem_getD hx
    rw [subsliceOf_length] at hm
    have hm1 : m < j + 1 - i := lt_of_lt_of_le hm (Nat.min_le_left _ _)
    have hm2 : m < l.length - i := lt_of_lt_of_le hm (Nat.min_le_right _ _)
    refine ⟨i + m, Nat.le_add_right _ _, by omega, by omega, ?_⟩
    rw [← subsliceOf_getD hm1]
    exact hget
  · rintro ⟨k, hik, hkj, hkl, hget⟩
    have hm : k - i < (subsliceOf l i j).length := by rw [subsliceOf_length]; omega
    have heq := @subsliceOf_getD l i j (k - i) (by omega)
    rw [(by omega : i + (k - i) = k)] at heq
    rw [← hget, ← heq]
    exact getD_mem hm

theorem subsliceOf_pairwise {l : List Int} (hs : l.Pairwise (· < ·)) (i j : Nat) :
    (subsliceOf l i j).Pairwise (· < ·) :=
  (hs.sublist (List.drop_sublist i l)).sublist (List.take_sublist _ _)

theorem subsliceOf_subset {l : List Int} {i j : Nat} {x : Int}
    (h : x ∈ subsliceOf l i j) : x ∈ l := by
  obtain ⟨k, -, -, hkl, hget⟩ := mem_subsliceOf.mp h
  exact hget ▸ getD_mem hkl

/-- The test `ids_subslice.binary_search(&id).is_ok()` decides membership on a strictly
sorted subslice. -/
theorem found_iff_mem {sub : List Int} (hs : sub.Sorted (· ≤ ·)) (x : Int) :
    found sub x = true ↔ x ∈ sub := by
  unfold found
  cases h : binary_search sub x with
  | ok i =>
    obtain ⟨hlen, hget⟩ := binary_search_ok h
    exact iff_of_true rfl (hget ▸ getD_mem hlen)
  | error ℓ =>
    exact iff_of_false (by simp) (binary_search_error_not_mem hs h)

/-- A true `found` always implies membership, with no sortedness assumption: a
successful binary search returns the index of an element it actually saw. -/
theorem found_mem {sub : List Int} {x : Int} (h : found sub x = true) : x ∈ sub := by
  unfold found at h
  cases hb : binary_search sub x with
  | ok i =>
    obtain ⟨hlen, hget⟩ := binary_search_ok hb
    exact hget ▸ getD_mem hlen
  | error ℓ => rw [hb] at h; cases h

/-- Evaluating `range_included` on a strictly sorted, well-formed range: a returned span
`[i, j]` is a valid span whose two endpoint elements lie inside `[lo, hi]`, and
which covers every index holding an element inside `[lo, hi]`.  (Endpoints
in-range plus coverage make it the smallest such span.) -/
theorem range_included_some_spec {lo hi : Int} {S : List Int} {i j : Nat}
    (hs : S.Pairwise (· < ·)) (hlohi : lo ≤ hi)
    (h : range_included lo hi S = some (i, j)) :
    i ≤ j ∧ j < S.length ∧
      (lo ≤ S.getD i 0 ∧ S.getD i 0 ≤ hi) ∧
      (lo ≤ S.getD j 0 ∧ S.getD j 0 ≤ hi) ∧
      (∀ k, k < S.length → lo ≤ S.getD k 0 → S.getD k 0 ≤ hi → i ≤ k ∧ k ≤ j) := by
  have hsle := strict_sorted_le hs
  cases hlo : binary_search S lo with
  | ok s =>
    obtain ⟨hilen, hix⟩ := binary_search_ok hlo
    cases hhi : binary_search S hi with
    | ok e =>
      simp only [range_included, hlo, hhi, Option.some.injEq, Prod.mk.injEq] at h
      obtain ⟨hs1, hs2⟩ := h
      subst hs1
      subst hs2
      obtain ⟨hjlen, hjx⟩ := binary_search_ok hhi
      have hij : s ≤ e := by
        by_contra hc
        have := strictSorted_getD_mono hs (by omega : e < s) hilen
        rw [hix, hjx] at this
        omega
      refine ⟨hij, hjlen, ⟨le_of_eq hix.symm, hix ▸ hlohi⟩, ⟨hjx ▸ hlohi, le_of_eq hjx⟩, ?_⟩
      intro k hklen h1 h2
      constructor
      · by_contra hc
        have := strictSorted_getD_mono hs (by omega : k < s) hilen
        rw [hix] at this
        omega
      · by_contra hc
        have := strictSorted_getD_mono hs (by omega : e < k) hklen
        rw [hjx] at this
        omega
    | error e =>
      simp only [range_included, hlo, hhi, Option.some.injEq, Prod.mk.injEq] at h
      obtain ⟨hs1, hs2⟩ := h
      subst hs1
      subst hs2
      obtain ⟨helen, hlt, hgt⟩ := binary_search_error hsle hhi
      have hne : lo ≠ hi := by
        intro heq
        rw [heq, hhi] at hlo
        cases hlo
      have hlolt : lo < hi := lt_of_le_of_ne hlohi hne
      have hie : s < e := by
        by_contra hc
        have := hgt s (by omega) hilen
        rw [hix] at this
        omega
      refine ⟨by omega, by omega, ⟨le_of_eq hix.symm, hix ▸ hlohi⟩, ?_, ?_⟩
      · constructor
        · calc lo = S.getD s 0 := hix.symm
            _ ≤ S.getD (e - 1) 0 := sorted_getD_mono hsle (by omega) (by omega)
        · exact le_of_lt (hlt (e - 1) (by omega) (by omega))
      · intro k hklen h1 h2
        constructor
        · by_contra hc
          have := strictSorted_getD_mono hs (by omega : k < s) hilen
          rw [hix] at this
          omega
        · by_contra hc
          have := hgt k (by omega) hklen
          omega
  | error s =>
    obtain ⟨hslen', hlt1, hgt1⟩ := binary_search_error hsle hlo
    cases hhi : binary_search S hi with
    | ok e =>
      simp only [range_included, hlo, hhi, Option.some.injEq, Prod.mk.injEq] at h
      obtain ⟨hs1, hs2⟩ := h
      subst hs1
      subst hs2
      obtain ⟨hjlen, hjx⟩ := binary_search_ok hhi
      have hij : s ≤ e := by
        by_contra hc
        have := hlt1 e (by omega) hjlen
        rw [hjx] at this
        omega
      refine ⟨hij, hjlen, ?_, ⟨hjx ▸ hlohi, le_of_eq hjx⟩, ?_⟩
      · constructor
        · exact le_of_lt (hgt1 s (le_refl _) (by omega))
        · calc S.getD s 0 ≤ S.getD e 0 := sorted_getD_mono hsle hij hjlen
            _ = hi := hjx
      · intro k hklen h1 h2
        constructor
        · by_contra hc
          have := hlt1 k (by omega) hklen
          omega
        · by_contra hc
          have := strictSorted_getD_mono hs (by omega : e < k) hklen
          rw [hjx] at this
          omega
    | error e =>
      simp only [range_included, hlo, hhi] at h
      obtain ⟨helen, hlt2, hgt2⟩ := binary_search_error hsle hhi
      by_cases hse : s = e
      · rw [if_pos hse] at h
        cases h
      · rw [if_neg hse] at h
        simp only [Option.some.injEq, Prod.mk.injEq] at h
        obtain ⟨hs1, hs2⟩ := h
        subst hs1
        subst hs2
        have hie : s < e := by
          rcases Nat.lt_or_ge s e with hc | hc
          · exact hc
          · rcases Nat.eq_or_lt_of_le hc with hc2 | hc2
            · exact absurd hc2.symm hse
            · have h1 := hgt2 e (le_refl _) (by omega)
              have h2 := hlt1 e hc2 (by omega)
              omega
        refine ⟨by omega, by omega, ?_, ?_, ?_⟩
        · constructor
          · exact le_of_lt (hgt1 s (le_refl _) (by omega))
          · exact le_of_lt (hlt2 s hie (by omega))
        · constructor
          · calc lo ≤ S.getD s 0 := le_of_lt (hgt1 s (le_refl _) (by omega))
              _ ≤ S.getD (e - 1) 0 := sorted_getD_mono hsle (by omega) (by omega)
          · exact le_of_lt (hlt2 (e - 1) (by omega) (by omega))
        · intro k hklen h1 h2
          constructor
          · by_contra hc
            have := hlt1 k (by omega) hklen
            omega
          · by_contra hc
            have := hgt2 k (by omega) hklen
            omega

/-- The matcher `range_included` answers `none` exactly when no element of the (strictly
sorted) slice lies inside the well-formed range `[lo, hi]`. -/
theorem range_included_none_iff {lo hi : Int} {S : List Int}
    (hs : S.Pairwise (· < ·)) (hlohi : lo ≤ hi) :
    range_included lo hi S = none ↔ ∀ x ∈ S, ¬(lo ≤ x ∧ x ≤ hi) := by
  constructor
  · intro h x hx hrange
    obtain ⟨k, hklen, hget⟩ := mem_getD hx
    cases hlo : binary_search S lo with
    | ok s =>
      cases hhi : binary_search S hi with
      | ok e =>
        simp only [range_included, hlo, hhi] at h
        cases h
      | error e =>
        simp only [range_included, hlo, hhi] at h
        cases h
    | error s =>
      cases hhi : binary_search S hi with
      | ok e =>
        simp only [range_included, hlo, hhi] at h
        cases h
      | error e =>
        simp only [range_included, hlo, hhi] at h
        by_cases hse : s = e
        · subst hse
          obtain ⟨hslen', hlt1, hgt1⟩ := binary_search_error (strict_sorted_le hs) hlo
          obtain ⟨-, hlt2, hgt2⟩ := binary_search_error (strict_sorted_le hs) hhi
          rcases Nat.lt_or_ge k s with hc | hc
          · have := hlt1 k hc hklen
            rw [hget] at this
            exact absurd hrange.1 (by omega)
          · have := hgt2 k hc hklen
            rw [hget] at this
            exact absurd hrange.2 (by omega)
        · rw [if_neg hse] at h
          cases h
  · intro hempty
    cases hri : range_included lo hi S with
    | none => rfl
    | some p =>
      obtain ⟨i, j⟩ := p
      obtain ⟨hij, hjlen, ⟨h1, h2⟩, -, -⟩ := range_included_some_spec hs hlohi hri
      exact absurd ⟨h1, h2⟩ (hempty _ (getD_mem (by omega)))

/-- The matched subslice holds exactly the elements of the slice lying inside
the range. -/
theorem mem_subslice_range_included {lo hi : Int} {S : List Int} {i j : Nat}
    (hs : S.Pairwise (· < ·)) (hlohi : lo ≤ hi)
    (h : range_included lo hi S = some (i, j)) (x : Int) :
    x ∈ subsliceOf S i j ↔ x ∈ S ∧ lo ≤ x ∧ x ≤ hi := by
  obtain ⟨hij, hjlen, ⟨hi1, hi2⟩, ⟨hj1, hj2⟩, hcover⟩ := range_included_some_spec hs hlohi h
  rw [mem_subsliceOf]
  constructor
  · rintro ⟨k, hik, hkj, hklen, hget⟩
    subst hget
    refine ⟨getD_mem hklen, ?_, ?_⟩
    · exact le_trans hi1 (sorted_getD_mono (strict_sorted_le hs) hik hklen)
    · exact le_trans (sorted_getD_mono (strict_sorted_le hs) hkj hjlen) hj2
  · rintro ⟨hmem, h1, h2⟩
    obtain ⟨k, hklen, hget⟩ := mem_getD hmem
    obtain ⟨hik, hkj⟩ := hcover k hklen (by rw [hget]; exact h1) (by rw [hget]; exact h2)
    exact ⟨k, hik, hkj, hklen, hget⟩

/-! ## The working id set: sorting and deduplication -/

theorem dedupSorted_cons_cons (a b : Int) (rest : List Int) :
    dedupSorted (a :: b :: rest) =
      if a = b then dedupSorted (b :: rest) else a :: dedupSorted (b :: rest) := rfl

theorem mem_dedupSorted : ∀ (l : List Int) (x : Int), x ∈ dedupSorted l ↔ x ∈ l
  | [], x => Iff.rfl
  | [a], x => Iff.rfl
  | a :: b :: rest, x => by
    rw [dedupSorted_cons_cons]
    by_cases hab : a = b
    · rw [if_pos hab]
      rw [mem_dedupSorted (b :: rest) x]
      subst hab
      simp only [List.mem_cons]
      tauto
    · rw [if_neg hab]
      simp only [List.mem_cons]
      rw [mem_dedupSorted (b :: rest) x]
      simp only [List.mem_cons]

theorem dedupSorted_pairwise : ∀ (l : List Int),
    l.Sorted (· ≤ ·) → (dedupSorted l).Pairwise (· < ·)
  | [], _ => List.Pairwise.nil
  | [a], _ => List.pairwise_singleton ..
  | a :: b :: rest, h => by
    have hrest : (b :: rest).Sorted (· ≤ ·) := h.of_cons
    have hab : a ≤ b := (List.pairwise_cons.mp h).1 b (List.mem_cons_self b rest)
    rw [dedupSorted_cons_cons]
    by_cases he : a = b
    · rw [if_pos he]
      exact dedupSorted_pairwise (b :: rest) hrest
    · rw [if_neg he]
      refine List.pairwise_cons.mpr ⟨?_, dedupSorted_pairwise (b :: rest) hrest⟩
      intro z hz
      rw [mem_dedupSorted] at hz
      have hbz : b ≤ z := by
        rcases List.mem_cons.mp hz with h1 | h1
        · exact le_of_eq h1.symm
        · exact (List.pairwise_cons.mp hrest).1 z h1
      exact lt_of_lt_of_le (lt_of_le_of_ne hab he) hbz

/-- The working id set is strictly sorted (duplicate-free ascending). -/
theorem sortDedup_pairwise (l : List Int) : (sortDedup l).Pairwise (· < ·) :=
  dedupSorted_pairwise _ (List.sorted_insertionSort _ l)

/-- Sorting and deduplicating preserves membership. -/
theorem mem_sortDedup {l : List Int} {x : Int} : x ∈ sortDedup l ↔ x ∈ l := by
  rw [sortDedup, mem_dedupSorted]
  exact (List.perm_insertionSort _ l).mem_iff

/-! ## The per-block min/max id scan -/

theorem foldl_checkMinMax_some :
    ∀ (ids : List Int) (mn mx : Int),
      ∃ mn' mx', ids.foldl checkMinMax (some mn, some mx) = (some mn', some mx') ∧
        (mn' = mn ∨ mn' ∈ ids) ∧ (mx' = mx ∨ mx' ∈ ids) ∧
        mn' ≤ mn ∧ mx ≤ mx' ∧ ∀ x ∈ ids, mn' ≤ x ∧ x ≤ mx'
  | [], mn, mx => ⟨mn, mx, rfl, Or.inl rfl, Or.inl rfl, le_refl _, le_refl _, by simp⟩
  | x :: rest, mn, mx => by
    obtain ⟨mn', mx', heq, hmn, hmx, hle1, hle2, hbound⟩ :=
      foldl_checkMinMax_some rest (min mn x) (max mx x)
    refine ⟨mn', mx', ?_, ?_, ?_, ?_, ?_, ?_⟩
    · rw [List.foldl_cons]
      exact heq
    · rcases hmn with h | h
      · rcases min_choice mn x with hc | hc
        · exact Or.inl (h.trans hc)
        · exact Or.inr (List.mem_cons.mpr (Or.inl (h.trans hc)))
      · exact Or.inr (List.mem_cons.mpr (Or.inr h))
    · rcases hmx with h | h
      · rcases max_choice mx x with hc | hc
        · exact Or.inl (h.trans hc)
        · exact Or.inr (List.mem_cons.mpr (Or.inl (h.trans hc)))
      · exact Or.inr (List.mem_cons.mpr (Or.inr h))
    · exact le_trans hle1 (min_le_left _ _)
    · exact le_trans (le_max_left _ _) hle2
    · intro z hz
      rcases List.mem_cons.mp hz with h | h
      · subst h
        exact ⟨le_trans hle1 (min_le_right _ _), le_trans (le_max_right _ _) hle2⟩
      · exact hbound z h

/-- The pass-1 min/max scan of a block: nothing for a block without point
records, otherwise an attained inclusive bound on all its point ids. -/
theorem blockMinMax_spec (b : PrimitiveBlock) :
    (blockMinMax b = (none, none) ∧ blockNodeIds b = []) ∨
      (∃ mn mx, blockMinMax b = (some mn, some mx) ∧ mn ∈ blockNodeIds b ∧
        mx ∈ blockNodeIds b ∧ ∀ x ∈ blockNodeIds b, mn ≤ x ∧ x ≤ mx) := by
  unfold blockMinMax
  cases hids : blockNodeIds b with
  | nil => exact Or.inl ⟨rfl, rfl⟩
  | cons x rest =>
    obtain ⟨mn, mx, heq, hmn, hmx, hle1, hle2, hbound⟩ := foldl_checkMinMax_some rest x x
    refine Or.inr ⟨mn, mx, ?_, ?_, ?_, ?_⟩
    · rw [List.foldl_cons]
      exact heq
    · rcases hmn with h | h
      · exact List.mem_cons.mpr (Or.inl h)
      · exact List.mem_cons.mpr (Or.inr h)
    · rcases hmx with h | h
      · exact List.mem_cons.mpr (Or.inl h)
      · exact List.mem_cons.mpr (Or.inr h)
    · intro z hz
      rcases List.mem_cons.mp hz with h | h
      · subst h
        exact ⟨hle1, hle2⟩
      · exact hbound z h

/-- The node range the pass-1 visit of a block computes for its descriptor
(`none` when the block has no point records). -/
def freshNodeRange (b : PrimitiveBlock) : Option (Int × Int) :=
  match blockMinMax b with
  | (some mn, some mx) => some (mn, mx)
  | _ => none

theorem updateInfo_of_none {info : BlobInfo} {b : PrimitiveBlock}
    (h : freshNodeRange b = none) : updateInfo info b = info := by
  rcases hmm : blockMinMax b with ⟨mn1, mx1⟩
  unfold freshNodeRange at h
  rw [hmm] at h
  unfold updateInfo
  rw [hmm]
  cases mn1 with
  | none => cases mx1 <;> rfl
  | some a =>
    cases mx1 with
    | none => rfl
    | some c => simp at h

theorem updateInfo_of_some {info : BlobInfo} {b : PrimitiveBlock} {mn mx : Int}
    (h : freshNodeRange b = some (mn, mx)) :
    updateInfo info b =
      { info with id_ranges := some { node_ids := some (mn, mx), way_ids := none, relation_ids := none } } := by
  rcases hmm : blockMinMax b with ⟨mn1, mx1⟩
  unfold freshNodeRange at h
  rw [hmm] at h
  unfold updateInfo
  rw [hmm]
  cases mn1 with
  | none => cases mx1 <;> simp at h
  | some a =>
    cases mx1 with
    | none => simp at h
    | some c =>
      simp at h
      obtain ⟨h1, h2⟩ := h
      subst h1
      subst h2
      rfl

theorem updateInfo_offset (info : BlobInfo) (b : PrimitiveBlock) :
    (updateInfo info b).offset = info.offset := by
  rcases hmm : blockMinMax b with ⟨mn1, mx1⟩
  unfold updateInfo
  rw [hmm]
  cases mn1 <;> cases mx1 <;> rfl

theorem updateInfo_blob_type (info : BlobInfo) (b : PrimitiveBlock) :
    (updateInfo info b).blob_type = info.blob_type := by
  rcases hmm : blockMinMax b with ⟨mn1, mx1⟩
  unfold updateInfo
  rw [hmm]
  cases mn1 <;> cases mx1 <;> rfl

/-- The fresh range, when present, is the attained inclusive [min, max] bound
of the block's point ids. -/
theorem freshNodeRange_spec (b : PrimitiveBlock) :
    (freshNodeRange b = none ∧ blockNodeIds b = []) ∨
      (∃ mn mx, freshNodeRange b = some (mn, mx) ∧ mn ∈ blockNodeIds b ∧
        mx ∈ blockNodeIds b ∧ ∀ x ∈ blockNodeIds b, mn ≤ x ∧ x ≤ mx) := by
  rcases blockMinMax_spec b with ⟨h1, h2⟩ | ⟨mn, mx, h1, h2, h3, h4⟩
  · exact Or.inl ⟨by unfold freshNodeRange; rw [h1], h2⟩
  · refine Or.inr ⟨mn, mx, ?_, h2, h3, h4⟩
    unfold freshNodeRange
    rw [h1]

/-- A block with no point records computes no range. -/
theorem freshNodeRange_of_empty {b : PrimitiveBlock} (h : blockNodeIds b = []) :
    freshNodeRange b = none := by
  unfold freshNodeRange blockMinMax
  rw [h]
  rfl

/-- A block with at least one point record computes a range. -/
theorem freshNodeRange_of_ne_empty {b : PrimitiveBlock} (h : blockNodeIds b ≠ []) :
    ∃ mn mx, freshNodeRange b = some (mn, mx) ∧ mn ∈ blockNodeIds b ∧
      mx ∈ blockNodeIds b ∧ ∀ x ∈ blockNodeIds b, mn ≤ x ∧ x ≤ mx := by
  rcases freshNodeRange_spec b with ⟨-, h2⟩ | hr
  · exact absurd h2 h
  · exact hr

/-! ## Characterizing pass 1 -/

/-- The skeleton of a descriptor: what pass 1's control flow depends on. -/
def skel (info : BlobInfo) : Nat × SimpleBlobType :=
  (info.offset, info.blob_type)

/-- The effect of a completed pass-1 visit on one descriptor. -/
def visitInfo (c : List Blob) (info : BlobInfo) : BlobInfo :=
  if info.blob_type = .Primitive then
    match fetchBlock c info.offset with
    | .ok b => updateInfo info b
    | .error _ => info
  else info

/-- The node ids pass 1 collects from one descriptor's block. -/
def infoRefs (c : List Blob) (filter : Way → Bool) (info : BlobInfo) : List Int :=
  if info.blob_type = .Primitive then
    match fetchBlock c info.offset with
    | .ok b => blockCollectedRefs filter b
    | .error _ => []
  else []

/-- The way elements pass 1 emits from one descriptor's block. -/
def infoWayElems (c : List Blob) (filter : Way → Bool) (info : BlobInfo) : List Element :=
  if info.blob_type = .Primitive then
    match fetchBlock c info.offset with
    | .ok b => blockWayElems filter b
    | .error _ => []
  else []

/-- All node ids pass 1 collects over a descriptor list. -/
def pass1Refs (c : List Blob) (filter : Way → Bool) (l : List BlobInfo) : List Int :=
  l.flatMap (infoRefs c filter)

/-- All way elements pass 1 emits over a descriptor list. -/
def pass1Elems (c : List Blob) (filter : Way → Bool) (l : List BlobInfo) : List Element :=
  l.flatMap (infoWayElems c filter)

/-- Master description of pass 1: it processes a prefix of `k` descriptors
(everything on success, everything up to the first failing block on error),
updating exactly that prefix, collecting ids and emitting ways from it, and
leaving the rest untouched. -/
theorem pass1_split (c : List Blob) (filter : Way → Bool) :
    ∀ l : List BlobInfo, ∃ k, k ≤ l.length ∧
      (pass1 c filter l).index = (l.take k).map (visitInfo c) ++ l.drop k ∧
      (pass1 c filter l).node_ids = pass1Refs c filter (l.take k) ∧
      (pass1 c filter l).emitted = pass1Elems c filter (l.take k) ∧
      (∀ info ∈ l.take k, info.blob_type = .Primitive → ∃ b, fetchBlock c info.offset = .ok b) ∧
      ((pass1 c filter l).err = none → k = l.length) ∧
      (∀ e, (pass1 c filter l).err = some e →
        ∃ info, l.get? k = some info ∧ info.blob_type = .Primitive ∧
          fetchBlock c info.offset = .error e)
  | [] => by
    refine ⟨0, le_refl _, rfl, rfl, rfl, by simp, fun _ => rfl, ?_⟩
    intro e he
    cases he
  | info :: rest => by
    by_cases hbt : info.blob_type = .Primitive
    · cases hf : fetchBlock c info.offset with
      | error e0 =>
        refine ⟨0, Nat.zero_le _, ?_, ?_, ?_, by simp, ?_, ?_⟩
        · simp [pass1, hbt, hf]
        · simp [pass1, hbt, hf, pass1Refs]
        · simp [pass1, hbt, hf, pass1Elems]
        · intro hnone
          simp [pass1, hbt, hf] at hnone
        · intro e he
          simp only [pass1, if_pos hbt, hf] at he
          refine ⟨info, rfl, hbt, ?_⟩
          rw [hf, Option.some.inj he]
      | ok b =>
        obtain ⟨k, hk, hidx, hids, hem, hok, hnone, herr⟩ := pass1_split c filter rest
        refine ⟨k + 1, by simpa using Nat.succ_le_succ hk, ?_, ?_, ?_, ?_, ?_, ?_⟩
        · simp only [pass1, if_pos hbt, hf, List.take_succ_cons, List.map_cons,
            List.drop_succ_cons, List.cons_append]
          rw [hidx]
          have : visitInfo c info = updateInfo info b := by
            unfold visitInfo
            rw [if_pos hbt, hf]
          rw [this]
        · simp only [pass1, if_pos hbt, hf, List.take_succ_cons, pass1Refs, List.flatMap_cons]
          rw [hids]
          have : infoRefs c filter info = blockCollectedRefs filter b := by
            unfold infoRefs
            rw [if_pos hbt, hf]
          rw [this]
          rfl
        · simp only [pass1, if_pos hbt, hf, List.take_succ_cons, pass1Elems, List.flatMap_cons]
          rw [hem]
          have : infoWayElems c filter info = blockWayElems filter b := by
            unfold infoWayElems
            rw [if_pos hbt, hf]
          rw [this]
          rfl
        · intro i hi hip
          rw [List.take_succ_cons] at hi
          rcases List.mem_cons.mp hi with h1 | h1
          · subst h1
            exact ⟨b, hf⟩
          · exact hok i h1 hip
        · intro he
          simp only [pass1, if_pos hbt, hf] at he
          rw [hnone he, List.length_cons]
        · intro e he
          simp only [pass1, if_pos hbt, hf] at he
          obtain ⟨i, h1, h2, h3⟩ := herr e he
          exact ⟨i, by rw [List.get?_cons_succ]; exact h1, h2, h3⟩
    · obtain ⟨k, hk, hidx, hids, hem, hok, hnone, herr⟩ := pass1_split c filter rest
      refine ⟨k + 1, by simpa using Nat.succ_le_succ hk, ?_, ?_, ?_, ?_, ?_, ?_⟩
      · simp only [pass1, if_neg hbt, List.take_succ_cons, List.map_cons,
          List.drop_succ_cons, List.cons_append]
        rw [hidx]
        have : visitInfo c info = info := by
          unfold visitInfo
          rw [if_neg hbt]
        rw [this]
      · simp only [pass1, if_neg hbt, List.take_succ_cons, pass1Refs, List.flatMap_cons]
        rw [hids]
        have : infoRefs c filter info = [] := by
          unfold infoRefs
          rw [if_neg hbt]
        rw [this]
        rfl
      · simp only [pass1, if_neg hbt, List.take_succ_cons, pass1Elems, List.flatMap_cons]
        rw [hem]
        have : infoWayElems c filter info = [] := by
          unfold infoWayElems
          rw [if_neg hbt]
        rw [this]
        rfl
      · intro i hi hip
        rw [List.take_succ_cons] at hi
        rcases List.mem_cons.mp hi with h1 | h1
        · subst h1
          exact absurd hip hbt
        · exact hok i h1 hip
      · intro he
        simp only [pass1, if_neg hbt] at he
        rw [hnone he, List.length_cons]
      · intro e he
        simp only [pass1, if_neg hbt] at he
        obtain ⟨i, h1, h2, h3⟩ := herr e he
        exact ⟨i, by rw [List.get?_cons_succ]; exact h1, h2, h3⟩

/-- On success pass 1 visits everything: the index is fully refreshed, and all
collected ids and emitted ways are described block by block. -/
theorem pass1_success {c : List Blob} {filter : Way → Bool} {l : List BlobInfo}
    (h : (pass1 c filter l).err = none) :
    (pass1 c filter l).index = l.map (visitInfo c) ∧
    (pass1 c filter l).node_ids = pass1Refs c filter l ∧
    (pass1 c filter l).emitted = pass1Elems c filter l ∧
    (∀ info ∈ l, info.blob_type = .Primitive → ∃ b, fetchBlock c info.offset = .ok b) := by
  obtain ⟨k, hk, hidx, hids, hem, hok, hnone, -⟩ := pass1_split c filter l
  have hkl := hnone h
  subst hkl
  rw [List.take_length] at hidx hids hem hok
  rw [List.drop_length] at hidx
  rw [List.append_nil] at hidx
  exact ⟨hidx, hids, hem, hok⟩

/-! ## Skeleton dependence: pass behaviour is driven only by offsets and types -/

theorem skel_visitInfo (c : List Blob) (info : BlobInfo) :
    skel (visitInfo c info) = skel info := by
  unfold visitInfo
  by_cases h : info.blob_type = .Primitive
  · rw [if_pos h]
    cases hf : fetchBlock c info.offset with
    | ok b =>
      unfold skel
      rw [updateInfo_offset, updateInfo_blob_type]
    | error e => rfl
  · rw [if_neg h]

/-- Pass 1 never changes a descriptor's offset or type. -/
theorem pass1_index_skel (c : List Blob) (filter : Way → Bool) (l : List BlobInfo) :
    (pass1 c filter l).index.map skel = l.map skel := by
  obtain ⟨k, hk, hidx, -, -, -, -, -⟩ := pass1_split c filter l
  rw [hidx, List.map_append, List.map_map]
  have : skel ∘ visitInfo c = skel := funext fun info => skel_visitInfo c info
  rw [this, ← List.map_append, List.take_append_drop]

theorem infoRefs_skel {c : List Blob} {filter : Way → Bool} {i i' : BlobInfo}
    (h : skel i = skel i') : infoRefs c filter i = infoRefs c filter i' := by
  obtain ⟨h1, h2⟩ := Prod.mk.injEq .. ▸ h
  unfold infoRefs
  rw [h1, h2]

theorem infoWayElems_skel {c : List Blob} {filter : Way → Bool} {i i' : BlobInfo}
    (h : skel i = skel i') : infoWayElems c filter i = infoWayElems c filter i' := by
  obtain ⟨h1, h2⟩ := Prod.mk.injEq .. ▸ h
  unfold infoWayElems
  rw [h1, h2]

theorem flatMap_skel_congr {α : Type} (F : BlobInfo → List α)
    (hF : ∀ i i', skel i = skel i' → F i = F i') :
    ∀ l₁ l₂ : List BlobInfo, l₁.map skel = l₂.map skel → l₁.flatMap F = l₂.flatMap F
  | [], l₂, h => by
    have h2 : l₂ = [] := by simpa using h.symm
    rw [h2]
  | i :: rest, l₂, h => by
    cases l₂ with
    | nil => cases h
    | cons i' rest' =>
      simp only [List.map_cons, List.cons.injEq] at h
      rw [List.flatMap_cons, List.flatMap_cons, hF i i' h.1,
        flatMap_skel_congr F hF rest rest' h.2]

/-- Pass 1 emits the same ways, collects the same ids and fails identically on
two indexes with the same skeleton. -/
theorem pass1_skel_eq (c : List Blob) (filter : Way → Bool) :
    ∀ l₁ l₂ : List BlobInfo, l₁.map skel = l₂.map skel →
      (pass1 c filter l₁).node_ids = (pass1 c filter l₂).node_ids ∧
      (pass1 c filter l₁).emitted = (pass1 c filter l₂).emitted ∧
      (pass1 c filter l₁).err = (pass1 c filter l₂).err
  | [], l₂, h => by
    have h2 : l₂ = [] := by simpa using h.symm
    rw [h2]
    exact ⟨rfl, rfl, rfl⟩
  | i :: rest, l₂, h => by
    cases l₂ with
    | nil => cases h
    | cons i' rest' =>
      simp only [List.map_cons, List.cons.injEq] at h
      obtain ⟨hhead, htail⟩ := h
      obtain ⟨ho, ht⟩ := Prod.mk.injEq .. ▸ hhead
      obtain ⟨hids, hem, herr⟩ := pass1_skel_eq c filter rest rest' htail
      by_cases hbt : i.blob_type = .Primitive
      · have hbt' : i'.blob_type = .Primitive := ht ▸ hbt
        cases hf : fetchBlock c i.offset with
        | error e =>
          simp only [pass1, if_pos hbt, if_pos hbt', hf, ho ▸ hf]
          refine ⟨?_, ?_, ?_⟩ <;> trivial
        | ok b =>
          simp only [pass1, if_pos hbt, if_pos hbt', hf, ho ▸ hf]
          refine ⟨?_, ?_, ?_⟩
          · rw [hids]
          · rw [hem]
          · exact herr
      · have hbt' : ¬i'.blob_type = .Primitive := ht ▸ hbt
        simp only [pass1, if_neg hbt, if_neg hbt']
        exact ⟨hids, hem, herr⟩

/-! ## Element classifiers -/

/-- The point id carried by a `Node`/`DenseNode` element, `none` for a way. -/
def elemPointId : Element → Option Int
  | .way _ => none
  | .node n => some n.id
  | .dense_node d => some d.id

/-- Is this element a way callback? -/
def isWayElem : Element → Bool
  | .way _ => true
  | .node _ => false
  | .dense_node _ => false

/-- Is this element a point (`Node`/`DenseNode`) callback? -/
def isPointElem : Element → Bool
  | .way _ => false
  | .node _ => true
  | .dense_node _ => true

theorem isPointElem_iff {e : Element} : isPointElem e = true ↔ ∃ n, elemPointId e = some n := by
  cases e <;> simp [isPointElem, elemPointId]

theorem pass1Elems_ways (c : List Blob) (filter : Way → Bool) (l : List BlobInfo) :
    ∀ e ∈ pass1Elems c filter l, isWayElem e = true := by
  intro e he
  obtain ⟨info, -, he2⟩ := List.mem_flatMap.mp he
  unfold infoWayElems at he2
  split at he2
  · split at he2
    · obtain ⟨w, -, hw⟩ := List.mem_map.mp he2
      rw [← hw]
      rfl
    · cases he2
  · cases he2

/-- The ids pass 1 collects are exactly the references of the ways it emits. -/
theorem pass1Refs_eq_emitted_refs (c : List Blob) (filter : Way → Bool) (l : List BlobInfo) :
    pass1Refs c filter l =
      (l.flatMap fun info =>
        if info.blob_type = .Primitive then
          match fetchBlock c info.offset with
          | .ok b => blockAcceptedWays filter b
          | .error _ => []
        else []).flatMap Way.refs := by
  unfold pass1Refs
  rw [List.flatMap_assoc]
  congr 1
  funext info
  unfold infoRefs
  split
  · split
    · rfl
    · rfl
  · rfl

/-! ## Characterizing pass 2 -/

theorem binary_search_nil (x : Int) : binary_search [] x = .error 0 := rfl

theorem range_included_nil (lo hi : Int) : range_included lo hi [] = none := rfl

/-- The generic per-block point emission: all point records whose id satisfies
`p`, nodes before dense nodes within each group, groups in order. -/
def blockPointsBy (p : Int → Bool) (b : PrimitiveBlock) : List Element :=
  b.groups.flatMap fun g =>
    (g.nodes.filter fun n => p n.id).map .node ++
      (g.dense_nodes.filter fun d => p d.id).map .dense_node

theorem blockPointElems_eq_by (sub : List Int) (b : PrimitiveBlock) :
    blockPointElems sub b = blockPointsBy (fun x => found sub x) b := rfl

/-- The point elements of a block whose id belongs to the id list `S`. -/
def blockPointsIn (S : List Int) (b : PrimitiveBlock) : List Element :=
  blockPointsBy (fun x => decide (x ∈ S)) b

theorem mem_blockNodeIds_node {b : PrimitiveBlock} {g : PrimitiveGroup} {n : Node}
    (hg : g ∈ b.groups) (hn : n ∈ g.nodes) : n.id ∈ blockNodeIds b := by
  unfold blockNodeIds
  rw [List.mem_flatMap]
  refine ⟨g, hg, ?_⟩
  unfold groupNodeIds
  rw [List.mem_append]
  exact Or.inl (List.mem_map.mpr ⟨n, hn, rfl⟩)

theorem mem_blockNodeIds_dense {b : PrimitiveBlock} {g : PrimitiveGroup} {d : DenseNode}
    (hg : g ∈ b.groups) (hd : d ∈ g.dense_nodes) : d.id ∈ blockNodeIds b := by
  unfold blockNodeIds
  rw [List.mem_flatMap]
  refine ⟨g, hg, ?_⟩
  unfold groupNodeIds
  rw [List.mem_append]
  exact Or.inr (List.mem_map.mpr ⟨d, hd, rfl⟩)

theorem blockPointsBy_congr {b : PrimitiveBlock} {p q : Int → Bool}
    (h : ∀ x ∈ blockNodeIds b, p x = q x) : blockPointsBy p b = blockPointsBy q b := by
  unfold blockPointsBy
  refine List.flatMap_congr ?_
  intro g hg
  rw [List.filter_congr fun n hn => h n.id (mem_blockNodeIds_node hg hn),
    List.filter_congr fun d hd => h d.id (mem_blockNodeIds_dense hg hd)]

theorem blockPointsBy_nil {b : PrimitiveBlock} {p : Int → Bool}
    (h : ∀ x ∈ blockNodeIds b, p x = false) : blockPointsBy p b = [] := by
  unfold blockPointsBy
  rw [List.flatMap_eq_nil_iff]
  intro g hg
  rw [List.filter_eq_nil_iff.mpr fun n hn => by
      rw [h n.id (mem_blockNodeIds_node hg hn)]; exact Bool.false_ne_true,
    List.filter_eq_nil_iff.mpr fun d hd => by
      rw [h d.id (mem_blockNodeIds_dense hg hd)]; exact Bool.false_ne_true]
  rfl

/-- Every element of a per-block pass-2 emission is a point whose id satisfies
the predicate and occurs among the block's point ids. -/
theorem blockPointsBy_spec {p : Int → Bool} {b : PrimitiveBlock} {e : Element}
    (he : e ∈ blockPointsBy p b) :
    ∃ n, elemPointId e = some n ∧ p n = true ∧ n ∈ blockNodeIds b := by
  unfold blockPointsBy at he
  obtain ⟨g, hg, he2⟩ := List.mem_flatMap.mp he
  rcases List.mem_append.mp he2 with h1 | h1
  · obtain ⟨n, hn, hne⟩ := List.mem_map.mp h1
    obtain ⟨hn1, hn2⟩ := List.mem_filter.mp hn
    exact ⟨n.id, by rw [← hne]; rfl, hn2, mem_blockNodeIds_node hg hn1⟩
  · obtain ⟨d, hd, hde⟩ := List.mem_map.mp h1
    obtain ⟨hd1, hd2⟩ := List.mem_filter.mp hd
    exact ⟨d.id, by rw [← hde]; rfl, hd2, mem_blockNodeIds_dense hg hd1⟩

/-- Soundness of pass 2, for any index state and any outcome: every emitted
element is a point record whose id belongs to the queried id list. -/
theorem pass2_sound (c : List Blob) (S : List Int) :
    ∀ l : List BlobInfo, ∀ e ∈ (pass2 c S l).emitted,
      ∃ n, elemPointId e = some n ∧ n ∈ S
  | [] => by
    intro e he
    cases he
  | info :: rest => by
    intro e he
    by_cases hbt : info.blob_type = .Primitive
    · cases hrg : info.id_ranges.bind IdRanges.node_ids with
      | none =>
        simp only [pass2, if_pos hbt, hrg] at he
        exact pass2_sound c S rest e he
      | some lohi =>
        obtain ⟨lo, hi⟩ := lohi
        cases hri : range_included lo hi S with
        | none =>
          simp only [pass2, if_pos hbt, hrg, hri] at he
          exact pass2_sound c S rest e he
        | some ij =>
          obtain ⟨i, j⟩ := ij
          cases hf : fetchBlock c info.offset with
          | error e0 =>
            simp only [pass2, if_pos hbt, hrg, hri, hf] at he
            cases he
          | ok b =>
            simp only [pass2, if_pos hbt, hrg, hri, hf] at he
            rcases List.mem_append.mp he with h1 | h1
            · rw [blockPointElems_eq_by] at h1
              obtain ⟨n, hn1, hn2, -⟩ := blockPointsBy_spec h1
              exact ⟨n, hn1, subsliceOf_subset (found_mem hn2)⟩
            · exact pass2_sound c S rest e h1
    · simp only [pass2, if_neg hbt] at he
      exact pass2_sound c S rest e he

/-- Any error pass 2 propagates is a genuine fetch/decode error of the
container. -/
theorem pass2_err (c : List Blob) (S : List Int) :
    ∀ l : List BlobInfo, ∀ e, (pass2 c S l).err = some e →
      ∃ off, fetchBlock c off = .error e
  | [] => by
    intro e he
    cases he
  | info :: rest => by
    intro e he
    by_cases hbt : info.blob_type = .Primitive
    · cases hrg : info.id_ranges.bind IdRanges.node_ids with
      | none =>
        simp only [pass2, if_pos hbt, hrg] at he
        exact pass2_err c S rest e he
      | some lohi =>
        obtain ⟨lo, hi⟩ := lohi
        cases hri : range_included lo hi S with
        | none =>
          simp only [pass2, if_pos hbt, hrg, hri] at he
          exact pass2_err c S rest e he
        | some ij =>
          obtain ⟨i, j⟩ := ij
          cases hf : fetchBlock c info.offset with
          | error e0 =>
            simp only [pass2, if_pos hbt, hrg, hri, hf] at he
            exact ⟨info.offset, by rw [hf, Option.some.inj he]⟩
          | ok b =>
            simp only [pass2, if_pos hbt, hrg, hri, hf] at he
            exact pass2_err c S rest e he
    · simp only [pass2, if_neg hbt] at he
      exact pass2_err c S rest e he

/-- With an empty working id set, pass 2 decodes nothing, emits nothing and
cannot fail: every interval query answers `none`. -/
theorem pass2_nil_ids (c : List Blob) :
    ∀ l : List BlobInfo, pass2 c [] l = { emitted := [], decoded := [], err := none }
  | [] => rfl
  | info :: rest => by
    by_cases hbt : info.blob_type = .Primitive
    · cases hrg : info.id_ranges.bind IdRanges.node_ids with
      | none =>
        simp only [pass2, if_pos hbt, hrg]
        exact pass2_nil_ids c rest
      | some lohi =>
        obtain ⟨lo, hi⟩ := lohi
        simp only [pass2, if_pos hbt, hrg, range_included_nil]
        exact pass2_nil_ids c rest
    · simp only [pass2, if_neg hbt]
      exact pass2_nil_ids c rest

/-- A descriptor is accurate when its cached node range is exactly what a
pass-1 visit of its (decodable) block computes. -/
def accurate (c : List Blob) (info : BlobInfo) : Prop :=
  info.blob_type = .Primitive →
    ∃ b, fetchBlock c info.offset = .ok b ∧
      info.id_ranges.bind IdRanges.node_ids = freshNodeRange b

/-- The pass-2 emission of one descriptor, as pass 2 performs it on accurate
ranges: all point records of its block whose id is in the working set. -/
def infoPointElems (c : List Blob) (S : List Int) (info : BlobInfo) : List Element :=
  if info.blob_type = .Primitive then
    match fetchBlock c info.offset with
    | .ok b => blockPointsIn S b
    | .error _ => []
  else []

theorem infoPointElems_skel {c : List Blob} {S : List Int} {i i' : BlobInfo}
    (h : skel i = skel i') : infoPointElems c S i = infoPointElems c S i' := by
  obtain ⟨h1, h2⟩ := Prod.mk.injEq .. ▸ h
  unfold infoPointElems
  rw [h1, h2]

/-- The expected total pass-2 emission over a descriptor list. -/
def pass2Spec (c : List Blob) (S : List Int) (l : List BlobInfo) : List Element :=
  l.flatMap (infoPointElems c S)

/-- Completeness of pass 2 on a strictly sorted working set and accurate
descriptors: it emits exactly the point records whose id is in the working
set, and cannot fail. -/
theorem pass2_complete (c : List Blob) (S : List Int) (hS : S.Pairwise (· < ·)) :
    ∀ l : List BlobInfo, (∀ info ∈ l, accurate c info) →
      (pass2 c S l).emitted = pass2Spec c S l ∧ (pass2 c S l).err = none
  | [] => fun _ => ⟨rfl, rfl⟩
  | info :: rest => by
    intro hacc
    have hrest := pass2_complete c S hS rest fun i hi => hacc i (List.mem_cons.mpr (Or.inr hi))
    by_cases hbt : info.blob_type = .Primitive
    · obtain ⟨b, hf, hrg⟩ := hacc info (List.mem_cons_self info rest) hbt
      have hspec : infoPointElems c S info = blockPointsIn S b := by
        unfold infoPointElems
        rw [if_pos hbt, hf]
      cases hfr : freshNodeRange b with
      | none =>
        rw [hfr] at hrg
        have hids : blockNodeIds b = [] := by
          rcases freshNodeRange_spec b with ⟨-, h2⟩ | ⟨mn, mx, h1, -⟩
          · exact h2
          · rw [h1] at hfr
            cases hfr
        simp only [pass2, if_pos hbt, hrg]
        refine ⟨?_, hrest.2⟩
        rw [hrest.1]
        unfold pass2Spec
        rw [List.flatMap_cons, hspec]
        unfold blockPointsIn
        rw [blockPointsBy_nil fun x hx => absurd hx (by rw [hids]; exact List.not_mem_nil x)]
        rfl
      | some lohi =>
        obtain ⟨mn, mx⟩ := lohi
        rw [hfr] at hrg
        obtain ⟨mn', mx', hfr', hmn, hmx, hbound⟩ := freshNodeRange_spec b |>.resolve_left
          (by rintro ⟨h1, -⟩; rw [h1] at hfr; cases hfr)
        rw [hfr] at hfr'
        obtain ⟨he1, he2⟩ := Prod.mk.injEq .. ▸ Option.some.inj hfr'
        subst he1
        subst he2
        have hlohi : mn ≤ mx := (hbound mx hmx).1
        cases hri : range_included mn mx S with
        | none =>
          have hnone := (range_included_none_iff hS hlohi).mp hri
          simp only [pass2, if_pos hbt, hrg, hri]
          refine ⟨?_, hrest.2⟩
          rw [hrest.1]
          unfold pass2Spec
          rw [List.flatMap_cons, hspec]
          unfold blockPointsIn
          rw [blockPointsBy_nil fun x hx => by
            rcases hx2 : decide (x ∈ S) with - | -
            · rfl
            · exact absurd ⟨(hbound x hx).1, (hbound x hx).2⟩ (hnone x (of_decide_eq_true hx2))]
          rfl
        | some ij =>
          obtain ⟨i, j⟩ := ij
          simp only [pass2, if_pos hbt, hrg, hri, hf]
          refine ⟨?_, hrest.2⟩
          rw [hrest.1]
          unfold pass2Spec
          rw [List.flatMap_cons, hspec]
          unfold blockPointsIn
          rw [blockPointElems_eq_by]
          congr 1
          refine blockPointsBy_congr fun x hx => ?_
          refine Bool.coe_iff_coe.mp ?_
          rw [found_iff_mem (strict_sorted_le (subsliceOf_pairwise hS i j)),
            mem_subslice_range_included hS hlohi hri, decide_eq_true_eq]
          constructor
          · rintro ⟨h1, -⟩
            exact h1
          · intro h1
            exact ⟨h1, (hbound x hx).1, (hbound x hx).2⟩
    · simp only [pass2, if_neg hbt]
      refine ⟨?_, hrest.2⟩
      rw [hrest.1]
      unfold pass2Spec
      rw [List.flatMap_cons]
      have : infoPointElems c S info = [] := by
        unfold infoPointElems
        rw [if_neg hbt]
      rw [this]
      rfl

/-! ## The reader invariant -/

theorem BlobInfo_eq {i i' : BlobInfo} (h1 : i.offset = i'.offset)
    (h2 : i.blob_type = i'.blob_type) (h3 : i.id_ranges = i'.id_ranges) : i = i' := by
  cases i
  cases i'
  simp_all

/-- What is always true of one descriptor of a reachable reader: only
`Primitive` descriptors ever carry ranges, and a stored range is exactly the
fresh range of the (still decodable) block at its offset. -/
def infoOK (c : List Blob) (info : BlobInfo) : Prop :=
  (info.blob_type ≠ .Primitive → info.id_ranges = none) ∧
  (info.id_ranges = none ∨
    ∃ b, fetchBlock c info.offset = .ok b ∧
      info.id_ranges = some { node_ids := freshNodeRange b, way_ids := none, relation_ids := none } ∧
      freshNodeRange b ≠ none)

/-- A built index always has the skeleton of a fresh scan, and every
descriptor is `infoOK`. -/
def indexOK (c : List Blob) (l : List BlobInfo) : Prop :=
  l.map skel = (create_index c).map skel ∧ ∀ info ∈ l, infoOK c info

theorem createIndexGo_id_ranges : ∀ (cs : List Blob) (off : Nat),
    ∀ info ∈ createIndexGo off cs, info.id_ranges = none
  | [], off => by
    intro info h
    cases h
  | b :: rest, off => by
    intro info h
    rcases List.mem_cons.mp h with h1 | h1
    · rw [h1]
    · exact createIndexGo_id_ranges rest (off + 1) info h1

theorem create_index_infoOK (c : List Blob) : ∀ info ∈ create_index c, infoOK c info := by
  intro info h
  have hnone := createIndexGo_id_ranges c 0 info h
  exact ⟨fun _ => hnone, Or.inl hnone⟩

theorem indexOK_create_index (c : List Blob) : indexOK c (create_index c) :=
  ⟨rfl, create_index_infoOK c⟩

theorem visitInfo_blob_type (c : List Blob) (info : BlobInfo) :
    (visitInfo c info).blob_type = info.blob_type :=
  congrArg Prod.snd (skel_visitInfo c info)

theorem visitInfo_offset (c : List Blob) (info : BlobInfo) :
    (visitInfo c info).offset = info.offset :=
  congrArg Prod.fst (skel_visitInfo c info)

theorem visitInfo_of_not_primitive {c : List Blob} {info : BlobInfo}
    (h : ¬info.blob_type = .Primitive) : visitInfo c info = info := by
  unfold visitInfo
  rw [if_neg h]

theorem visitInfo_of_err {c : List Blob} {info : BlobInfo} {e : Err}
    (h1 : info.blob_type = .Primitive) (h2 : fetchBlock c info.offset = .error e) :
    visitInfo c info = info := by
  simp only [visitInfo, if_pos h1, h2]

theorem visitInfo_of_ok {c : List Blob} {info : BlobInfo} {b : PrimitiveBlock}
    (h1 : info.blob_type = .Primitive) (h2 : fetchBlock c info.offset = .ok b) :
    visitInfo c info = updateInfo info b := by
  simp only [visitInfo, if_pos h1, h2]

/-- A pass-1 visit keeps a descriptor `infoOK`. -/
theorem visitInfo_infoOK {c : List Blob} {info : BlobInfo} (h : infoOK c info) :
    infoOK c (visitInfo c info) := by
  by_cases hbt : info.blob_type = .Primitive
  · cases hf : fetchBlock c info.offset with
    | error e =>
      rw [visitInfo_of_err hbt hf]
      exact h
    | ok b =>
      rw [visitInfo_of_ok hbt hf]
      cases hfr : freshNodeRange b with
      | none =>
        rw [updateInfo_of_none hfr]
        exact h
      | some r =>
        obtain ⟨mn, mx⟩ := r
        rw [updateInfo_of_some hfr]
        constructor
        · intro hc
          exact absurd hbt hc
        · refine Or.inr ⟨b, hf, ?_, ?_⟩
          · rw [hfr]
          · rw [hfr]
            exact fun hc => Option.noConfusion hc
  · rw [visitInfo_of_not_primitive hbt]
    exact h

/-- After a pass-1 visit with a successful fetch, a descriptor is accurate. -/
theorem visitInfo_accurate {c : List Blob} {info : BlobInfo} (hOK : infoOK c info)
    (hfetch : info.blob_type = .Primitive → ∃ b, fetchBlock c info.offset = .ok b) :
    accurate c (visitInfo c info) := by
  intro hbt'
  have hbt : info.blob_type = .Primitive := by
    rw [← visitInfo_blob_type c info]
    exact hbt'
  obtain ⟨b, hf⟩ := hfetch hbt
  refine ⟨b, ?_, ?_⟩
  · rw [visitInfo_offset]
    exact hf
  · rw [visitInfo_of_ok hbt hf]
    cases hfr : freshNodeRange b with
    | some r =>
      obtain ⟨mn, mx⟩ := r
      rw [updateInfo_of_some hfr]
      rfl
    | none =>
      rw [updateInfo_of_none hfr]
      rcases hOK.2 with h1 | ⟨b', hf', h2, h3⟩
      · rw [h1]
        rfl
      · rw [hf] at hf'
        have hb : b = b' := Except.ok.inj hf'
        rw [← hb] at h3
        exact absurd hfr h3

/-- Visiting two skeleton-equal descriptors, one `infoOK` and one fresh,
produces the same descriptor: the stale cached range never survives a visit
differently from the fresh one. -/
theorem visitInfo_eq_of_skel {c : List Blob} {info info' : BlobInfo}
    (hsk : skel info = skel info') (hOK : infoOK c info) (hnone : info'.id_ranges = none) :
    visitInfo c info = visitInfo c info' := by
  have ho : info.offset = info'.offset := congrArg Prod.fst hsk
  have ht : info.blob_type = info'.blob_type := congrArg Prod.snd hsk
  have heqinfo : info.id_ranges = none → info = info' := fun hr =>
    BlobInfo_eq ho ht (by rw [hr, hnone])
  by_cases hbt : info'.blob_type = .Primitive
  · have hbt0 : info.blob_type = .Primitive := by rw [ht]; exact hbt
    cases hf : fetchBlock c info'.offset with
    | error e =>
      have hf0 : fetchBlock c info.offset = .error e := by rw [ho]; exact hf
      rw [visitInfo_of_err hbt0 hf0, visitInfo_of_err hbt hf]
      apply heqinfo
      rcases hOK.2 with h1 | ⟨b', hf', -, -⟩
      · exact h1
      · rw [ho, hf] at hf'
        cases hf'
    | ok b =>
      have hf0 : fetchBlock c info.offset = .ok b := by rw [ho]; exact hf
      rw [visitInfo_of_ok hbt0 hf0, visitInfo_of_ok hbt hf]
      cases hfr : freshNodeRange b with
      | some r =>
        obtain ⟨mn, mx⟩ := r
        rw [updateInfo_of_some hfr, updateInfo_of_some hfr]
        exact BlobInfo_eq ho ht rfl
      | none =>
        rw [updateInfo_of_none hfr, updateInfo_of_none hfr]
        apply heqinfo
        rcases hOK.2 with h1 | ⟨b', hf', h2, h3⟩
        · exact h1
        · rw [ho, hf] at hf'
          have hb : b = b' := Except.ok.inj hf'
          rw [← hb] at h3
          exact absurd hfr h3
  · have hbt0 : ¬info.blob_type = .Primitive := by rw [ht]; exact hbt
    rw [visitInfo_of_not_primitive hbt0, visitInfo_of_not_primitive hbt]
    apply heqinfo
    exact hOK.1 hbt0

theorem map_visitInfo_eq (c : List Blob) :
    ∀ l₁ l₂ : List BlobInfo, l₁.map skel = l₂.map skel →
      (∀ i ∈ l₁, infoOK c i) → (∀ i ∈ l₂, i.id_ranges = none) →
      l₁.map (visitInfo c) = l₂.map (visitInfo c)
  | [], l₂, h, _, _ => by
    have h2 : l₂ = [] := by simpa using h.symm
    rw [h2]
  | i :: rest, l₂, h, hOK, hnone => by
    cases l₂ with
    | nil => cases h
    | cons i' rest' =>
      simp only [List.map_cons, List.cons.injEq] at h
      rw [List.map_cons, List.map_cons,
        visitInfo_eq_of_skel h.1 (hOK i (List.mem_cons_self i rest))
          (hnone i' (List.mem_cons_self i' rest')),
        map_visitInfo_eq c rest rest' h.2
          (fun x hx => hOK x (List.mem_cons.mpr (Or.inr hx)))
          (fun x hx => hnone x (List.mem_cons.mpr (Or.inr hx)))]

/-- Pass 1 preserves the reader invariant. -/
theorem indexOK_pass1 {c : List Blob} {filter : Way → Bool} {l : List BlobInfo}
    (h : indexOK c l) : indexOK c (pass1 c filter l).index := by
  refine ⟨?_, ?_⟩
  · rw [pass1_index_skel]
    exact h.1
  · obtain ⟨k, hk, hidx, -, -, -, -, -⟩ := pass1_split c filter l
    rw [hidx]
    intro info hinfo
    rcases List.mem_append.mp hinfo with h1 | h1
    · obtain ⟨i0, hi0, hv⟩ := List.mem_map.mp h1
      rw [← hv]
      exact visitInfo_infoOK (h.2 i0 (List.take_subset k l hi0))
    · exact h.2 info (List.drop_subset k l h1)

/-- The index a query works on is always `indexOK` for a reader satisfying the
invariant. -/
theorem usedIndex_indexOK {c : List Blob} {r : IndexedReader} (hc : r.container = c)
    (hOK : r.index = [] ∨ indexOK c r.index) : indexOK c (usedIndex r) := by
  unfold usedIndex
  by_cases he : r.index.isEmpty = true
  · rw [if_pos he, hc]
    exact indexOK_create_index c
  · rw [if_neg he]
    rcases hOK with h1 | h1
    · refine absurd ?_ he
      rw [h1]
      rfl
    · exact h1

/-! ## Dispatching `read_ways_and_deps` on the pass-1 outcome -/

theorem read_of_pass1_err {r : IndexedReader} {f : Way → Bool} {e : Err}
    (hp : (pass1 r.container f (usedIndex r)).err = some e) :
    read_ways_and_deps r f =
      { reader := { container := r.container, index := (pass1 r.container f (usedIndex r)).index },
        emitted := (pass1 r.container f (usedIndex r)).emitted,
        decoded2 := [], err := some e } := by
  simp only [read_ways_and_deps, hp]

theorem read_of_pass1_ok {r : IndexedReader} {f : Way → Bool}
    (hp : (pass1 r.container f (usedIndex r)).err = none) :
    read_ways_and_deps r f =
      { reader := { container := r.container, index := (pass1 r.container f (usedIndex r)).index },
        emitted := (pass1 r.container f (usedIndex r)).emitted ++
          (pass2 r.container (sortDedup (pass1 r.container f (usedIndex r)).node_ids)
            (pass1 r.container f (usedIndex r)).index).emitted,
        decoded2 := (pass2 r.container (sortDedup (pass1 r.container f (usedIndex r)).node_ids)
          (pass1 r.container f (usedIndex r)).index).decoded,
        err := (pass2 r.container (sortDedup (pass1 r.container f (usedIndex r)).node_ids)
          (pass1 r.container f (usedIndex r)).index).err } := by
  simp only [read_ways_and_deps, hp]

theorem read_reader_container (r : IndexedReader) (f : Way → Bool) :
    (read_ways_and_deps r f).reader.container = r.container := by
  cases hp : (pass1 r.container f (usedIndex r)).err with
  | none => rw [read_of_pass1_ok hp]
  | some e => rw [read_of_pass1_err hp]

theorem read_reader_index (r : IndexedReader) (f : Way → Bool) :
    (read_ways_and_deps r f).reader.index = (pass1 r.container f (usedIndex r)).index := by
  cases hp : (pass1 r.container f (usedIndex r)).err with
  | none => rw [read_of_pass1_ok hp]
  | some e => rw [read_of_pass1_err hp]

/-- Every reachable reader sits over the original container and satisfies the
index invariant. -/
theorem reachable_spec {c : List Blob} {r : IndexedReader} (h : Reachable c r) :
    r.container = c ∧ (r.index = [] ∨ indexOK c r.index) := by
  induction h with
  | base => exact ⟨rfl, Or.inl rfl⟩
  | step r0 f h0 ih =>
    obtain ⟨hc, hOK⟩ := ih
    refine ⟨by rw [read_reader_container]; exact hc, Or.inr ?_⟩
    rw [read_reader_index]
    have h2 := @indexOK_pass1 c f (usedIndex r0) (usedIndex_indexOK hc hOK)
    rw [hc]
    exact h2

/-! ## Container-level descriptions of the two passes -/

/-- The ways of one blob accepted by the filter (empty for non-data or
undecodable blobs). -/
def blobAcceptedWays (filter : Way → Bool) (blob : Blob) : List Way :=
  if simpleType blob.btype = .Primitive then
    match blob.decode with
    | .ok b => blockAcceptedWays filter b
    | .error _ => []
  else []

/-- All accepted ways of the container, in container order. -/
def containerAcceptedWays (c : List Blob) (filter : Way → Bool) : List Way :=
  c.flatMap (blobAcceptedWays filter)

def blobWayElemsF (filter : Way → Bool) (blob : Blob) : List Element :=
  if simpleType blob.btype = .Primitive then
    match blob.decode with
    | .ok b => blockWayElems filter b
    | .error _ => []
  else []

/-- The way callbacks of a full pass 1 over the container, in container
order. -/
def containerWayElems (c : List Blob) (filter : Way → Bool) : List Element :=
  c.flatMap (blobWayElemsF filter)

def blobRefs (filter : Way → Bool) (blob : Blob) : List Int :=
  if simpleType blob.btype = .Primitive then
    match blob.decode with
    | .ok b => blockCollectedRefs filter b
    | .error _ => []
  else []

/-- All references collected by a full pass 1 over the container. -/
def containerRefs (c : List Blob) (filter : Way → Bool) : List Int :=
  c.flatMap (blobRefs filter)

def blobPointsInF (S : List Int) (blob : Blob) : List Element :=
  if simpleType blob.btype = .Primitive then
    match blob.decode with
    | .ok b => blockPointsIn S b
    | .error _ => []
  else []

/-- All point records of the container whose id belongs to `S`, in container
order. -/
def containerPointsIn (c : List Blob) (S : List Int) : List Element :=
  c.flatMap (blobPointsInF S)

theorem info_blob_corr {α : Type} (c : List Blob) (H : PrimitiveBlock → List α)
    (off : Nat) (b : Blob) (hb : c.get? off = some b) :
    (if simpleType b.btype = SimpleBlobType.Primitive then
        match fetchBlock c off with
        | .ok blk => H blk
        | .error _ => []
      else []) =
    (if simpleType b.btype = SimpleBlobType.Primitive then
        match b.decode with
        | .ok blk => H blk
        | .error _ => []
      else []) := by
  have hf : fetchBlock c off = b.decode := by
    unfold fetchBlock
    rw [hb]
  rw [hf]

theorem createIndexGo_flatMap {α : Type} (c : List Blob) (F : BlobInfo → List α)
    (G : Blob → List α)
    (hFG : ∀ (off : Nat) (b : Blob), c.get? off = some b →
      F { offset := off, blob_type := simpleType b.btype, id_ranges := none } = G b) :
    ∀ (cs : List Blob) (off : Nat), (∀ i, cs.get? i = c.get? (off + i)) →
      (createIndexGo off cs).flatMap F = cs.flatMap G
  | [], off, h => rfl
  | blob :: rest, off, h => by
    have h0 : c.get? off = some blob := by
      have h1 := h 0
      rw [Nat.add_zero] at h1
      exact h1.symm
    have hrec := createIndexGo_flatMap c F G hFG rest (off + 1) (fun i => by
      have h1 := h (i + 1)
      rw [List.get?_cons_succ] at h1
      rw [h1]
      congr 1
      omega)
    rw [createIndexGo, List.flatMap_cons, List.flatMap_cons, hFG off blob h0, hrec]

theorem pass1Refs_create_index (c : List Blob) (filter : Way → Bool) :
    pass1Refs c filter (create_index c) = containerRefs c filter :=
  createIndexGo_flatMap c (infoRefs c filter) (blobRefs filter)
    (fun off b hb => info_blob_corr c (blockCollectedRefs filter) off b hb)
    c 0 (fun i => by rw [Nat.zero_add])

theorem pass1Elems_create_index (c : List Blob) (filter : Way → Bool) :
    pass1Elems c filter (create_index c) = containerWayElems c filter :=
  createIndexGo_flatMap c (infoWayElems c filter) (blobWayElemsF filter)
    (fun off b hb => info_blob_corr c (blockWayElems filter) off b hb)
    c 0 (fun i => by rw [Nat.zero_add])

theorem pass2Spec_create_index (c : List Blob) (S : List Int) :
    pass2Spec c S (create_index c) = containerPointsIn c S :=
  createIndexGo_flatMap c (infoPointElems c S) (blobPointsInF S)
    (fun off b hb => info_blob_corr c (blockPointsIn S) off b hb)
    c 0 (fun i => by rw [Nat.zero_add])

theorem containerWayElems_eq (c : List Blob) (filter : Way → Bool) :
    containerWayElems c filter = (containerAcceptedWays c filter).map .way := by
  unfold containerWayElems containerAcceptedWays
  rw [List.map_flatMap]
  refine List.flatMap_congr ?_
  intro blob hb
  unfold blobWayElemsF blobAcceptedWays blockWayElems
  split
  · split <;> rfl
  · rfl

theorem containerRefs_eq (c : List Blob) (filter : Way → Bool) :
    containerRefs c filter = (containerAcceptedWays c filter).flatMap Way.refs := by
  unfold containerRefs containerAcceptedWays
  rw [List.flatMap_assoc]
  refine List.flatMap_congr ?_
  intro blob hb
  unfold blobRefs blobAcceptedWays blockCollectedRefs
  split
  · split <;> rfl
  · rfl

/-! ## Master theorems about a full query -/

theorem usedIndex_skel {c : List Blob} {r : IndexedReader} (hc : r.container = c)
    (hOK : r.index = [] ∨ indexOK c r.index) :
    (usedIndex r).map skel = (create_index c).map skel :=
  (usedIndex_indexOK hc hOK).1

theorem pass1Refs_skel (c : List Blob) (f : Way → Bool) {l₁ l₂ : List BlobInfo}
    (h : l₁.map skel = l₂.map skel) : pass1Refs c f l₁ = pass1Refs c f l₂ :=
  flatMap_skel_congr (infoRefs c f) (fun _ _ h' => infoRefs_skel h') l₁ l₂ h

theorem pass1Elems_skel (c : List Blob) (f : Way → Bool) {l₁ l₂ : List BlobInfo}
    (h : l₁.map skel = l₂.map skel) : pass1Elems c f l₁ = pass1Elems c f l₂ :=
  flatMap_skel_congr (infoWayElems c f) (fun _ _ h' => infoWayElems_skel h') l₁ l₂ h

theorem pass2Spec_skel (c : List Blob) (S : List Int) {l₁ l₂ : List BlobInfo}
    (h : l₁.map skel = l₂.map skel) : pass2Spec c S l₁ = pass2Spec c S l₂ :=
  flatMap_skel_congr (infoPointElems c S) (fun _ _ h' => infoPointElems_skel h') l₁ l₂ h

/-- A successful query on any reader satisfying the invariant emits exactly
the accepted ways (container order) followed by exactly the point records
whose id is referenced by an accepted way (container order). -/
theorem read_success_spec {c : List Blob} {r : IndexedReader} {f : Way → Bool}
    (hc : r.container = c) (hOK : r.index = [] ∨ indexOK c r.index)
    (hp : (pass1 c f (usedIndex r)).err = none) :
    (read_ways_and_deps r f).emitted =
      containerWayElems c f ++ containerPointsIn c (sortDedup (containerRefs c f)) ∧
    (read_ways_and_deps r f).err = none := by
  subst hc
  have hlOK : indexOK r.container (usedIndex r) := usedIndex_indexOK rfl hOK
  obtain ⟨hidx, hids, hem, hfetch⟩ := pass1_success hp
  have hEM : (read_ways_and_deps r f).emitted =
      (pass1 r.container f (usedIndex r)).emitted ++
        (pass2 r.container (sortDedup (pass1 r.container f (usedIndex r)).node_ids)
          (pass1 r.container f (usedIndex r)).index).emitted := by
    rw [read_of_pass1_ok hp]
  have hERR : (read_ways_and_deps r f).err =
      (pass2 r.container (sortDedup (pass1 r.container f (usedIndex r)).node_ids)
        (pass1 r.container f (usedIndex r)).index).err := by
    rw [read_of_pass1_ok hp]
  have hS : sortDedup (pass1 r.container f (usedIndex r)).node_ids =
      sortDedup (containerRefs r.container f) := by
    rw [hids]
    rw [pass1Refs_skel r.container f hlOK.1]
    rw [pass1Refs_create_index]
  have hW : (pass1 r.container f (usedIndex r)).emitted = containerWayElems r.container f := by
    rw [hem]
    rw [pass1Elems_skel r.container f hlOK.1]
    rw [pass1Elems_create_index]
  have hacc : ∀ info ∈ (pass1 r.container f (usedIndex r)).index,
      accurate r.container info := by
    rw [hidx]
    intro info hinfo
    obtain ⟨i0, hi0, hv⟩ := List.mem_map.mp hinfo
    rw [← hv]
    exact visitInfo_accurate (hlOK.2 i0 hi0) (hfetch i0 hi0)
  have hp2 := pass2_complete r.container
    (sortDedup (pass1 r.container f (usedIndex r)).node_ids) (sortDedup_pairwise _)
    (pass1 r.container f (usedIndex r)).index hacc
  have hP : (pass2 r.container (sortDedup (pass1 r.container f (usedIndex r)).node_ids)
      (pass1 r.container f (usedIndex r)).index).emitted =
      containerPointsIn r.container (sortDedup (containerRefs r.container f)) := by
    rw [hp2.1]
    have hsk2 : (pass1 r.container f (usedIndex r)).index.map skel =
        (create_index r.container).map skel := by
      rw [pass1_index_skel]
      exact hlOK.1
    rw [pass2Spec_skel r.container (sortDedup (pass1 r.container f (usedIndex r)).node_ids) hsk2]
    rw [pass2Spec_create_index, hS]
  rw [hEM, hERR, hW, hP]
  exact ⟨rfl, hp2.2⟩

/-- A query observes only the container and the index skeleton: on any reader
satisfying the invariant it emits the same callback sequence, decodes the same
pass-2 blocks and fails identically to a freshly opened reader over the same
container. -/
theorem read_eq_fresh {c : List Blob} {r : IndexedReader} (hc : r.container = c)
    (hOK : r.index = [] ∨ indexOK c r.index) (f : Way → Bool) :
    (read_ways_and_deps r f).emitted =
      (read_ways_and_deps (IndexedReader.new c) f).emitted ∧
    (read_ways_and_deps r f).err = (read_ways_and_deps (IndexedReader.new c) f).err ∧
    (read_ways_and_deps r f).decoded2 =
      (read_ways_and_deps (IndexedReader.new c) f).decoded2 := by
  subst hc
  have hlOK : indexOK r.container (usedIndex r) := usedIndex_indexOK rfl hOK
  have hnew : pass1 (IndexedReader.new r.container).container f
      (usedIndex (IndexedReader.new r.container)) =
      pass1 r.container f (create_index r.container) := rfl
  obtain ⟨hids, hem, herr⟩ :=
    pass1_skel_eq r.container f (usedIndex r) (create_index r.container) hlOK.1
  cases hp : (pass1 r.container f (usedIndex r)).err with
  | some e =>
    have hp' : (pass1 (IndexedReader.new r.container).container f
        (usedIndex (IndexedReader.new r.container))).err = some e := by
      rw [hnew, ← herr]
      exact hp
    rw [read_of_pass1_err hp, read_of_pass1_err hp']
    refine ⟨?_, rfl, rfl⟩
    rw [hem, hnew]
  | none =>
    have hp' : (pass1 (IndexedReader.new r.container).container f
        (usedIndex (IndexedReader.new r.container))).err = none := by
      rw [hnew, ← herr]
      exact hp
    have hpc : (pass1 r.container f (create_index r.container)).err = none := by
      rw [← herr]
      exact hp
    have hidx1 := (pass1_success hp).1
    have hidx2 := (pass1_success hpc).1
    have hIDX : (pass1 r.container f (usedIndex r)).index =
        (pass1 r.container f (create_index r.container)).index := by
      rw [hidx1, hidx2]
      exact map_visitInfo_eq r.container (usedIndex r) (create_index r.container)
        hlOK.1 hlOK.2 (fun i hi => createIndexGo_id_ranges r.container 0 i hi)
    rw [read_of_pass1_ok hp, read_of_pass1_ok hp']
    rw [hnew]
    refine ⟨?_, ?_, ?_⟩
    · rw [hem, hids, hIDX]
      rfl
    · rw [hids, hIDX]
      rfl
    · rw [hids, hIDX]
      rfl

/-! ## Further supporting lemmas for the claims -/

/-- Extract the way from a way element. -/
def elemWay : Element → Option Way
  | .way w => some w
  | .node _ => none
  | .dense_node _ => none

theorem filterMap_elemWay_map (ws : List Way) :
    (ws.map Element.way).filterMap elemWay = ws := by
  induction ws with
  | nil => rfl
  | cons w rest ih => simp [elemWay, List.filterMap_cons, ih]

theorem pass1Refs_from_elems (c : List Blob) (f : Way → Bool) :
    ∀ l : List BlobInfo,
      pass1Refs c f l = ((pass1Elems c f l).filterMap elemWay).flatMap Way.refs
  | [] => rfl
  | info :: rest => by
    unfold pass1Refs pass1Elems
    rw [List.flatMap_cons, List.flatMap_cons, List.filterMap_append, List.flatMap_append]
    have htail := pass1Refs_from_elems c f rest
    unfold pass1Refs pass1Elems at htail
    rw [htail]
    congr 1
    unfold infoRefs infoWayElems
    split
    · split
      · unfold blockCollectedRefs blockWayElems
        rw [filterMap_elemWay_map]
      · rfl
    · rfl

/-- Pass 1 collects exactly the references of the ways it has emitted, even on
a partial (aborted) run. -/
theorem pass1_node_ids_from_ways (c : List Blob) (f : Way → Bool) (l : List BlobInfo) :
    (pass1 c f l).node_ids =
      ((pass1 c f l).emitted.filterMap elemWay).flatMap Way.refs := by
  obtain ⟨k, -, -, hids, hem, -, -, -⟩ := pass1_split c f l
  rw [hids, hem]
  exact pass1Refs_from_elems c f (l.take k)

theorem createIndexGo_get? :
    ∀ (cs : List Blob) (off k : Nat),
      (createIndexGo off cs).get? k = (cs.get? k).map fun b =>
        { offset := off + k, blob_type := simpleType b.btype, id_ranges := none }
  | [], off, k => by simp [createIndexGo]
  | b :: rest, off, k => by
    cases k with
    | zero => rfl
    | succ k =>
      rw [createIndexGo, List.get?_cons_succ, List.get?_cons_succ,
        createIndexGo_get? rest (off + 1) k]
      have : off + 1 + k = off + (k + 1) := by omega
      rw [this]

theorem create_index_get? (c : List Blob) (k : Nat) :
    (create_index c).get? k = (c.get? k).map fun b =>
      { offset := k, blob_type := simpleType b.btype, id_ranges := none } := by
  have h := createIndexGo_get? c 0 k
  rw [Nat.zero_add] at h
  exact h

/-- Pass 2 only ever emits point elements. -/
theorem pass2_points (c : List Blob) (S : List Int) (l : List BlobInfo) :
    ∀ e ∈ (pass2 c S l).emitted, isPointElem e = true := by
  intro e he
  obtain ⟨n, hn, -⟩ := pass2_sound c S l e he
  exact isPointElem_iff.mpr ⟨n, hn⟩

/-- A successful query means pass 1 succeeded. -/
theorem pass1_err_of_read_err {r : IndexedReader} {f : Way → Bool}
    (h : (read_ways_and_deps r f).err = none) :
    (pass1 r.container f (usedIndex r)).err = none := by
  cases hp : (pass1 r.container f (usedIndex r)).err with
  | none => rfl
  | some e =>
    rw [read_of_pass1_err hp] at h
    cases h

/-- The membership characterization of the working id set of a full scan. -/
theorem mem_sortDedup_containerRefs (c : List Blob) (f : Way → Bool) (x : Int) :
    x ∈ sortDedup (containerRefs c f) ↔ ∃ w ∈ containerAcceptedWays c f, x ∈ w.refs := by
  rw [mem_sortDedup, containerRefs_eq, List.mem_flatMap]

/-! ## Claims -/

/-- C2 counterexample: for the inverted (hence empty) inclusive range `[3, 1]`
no element of `[1, 2, 3]` lies in the range, yet `range_included` answers
`some (2, 0)` rather than `none`. -/
theorem C2_counterexample :
    range_included 3 1 [1, 2, 3] = some (2, 0) ∧
      ∀ x ∈ [(1 : Int), 2, 3], ¬(3 ≤ x ∧ x ≤ 1) := by
  decide

/-- C2 (amended: the inclusive range must be well-formed, `lo ≤ hi`): on every
strictly increasing sequence `S`, `range_included` returns `none` exactly when
no element of `S` lies in `[lo, hi]`; otherwise it returns a span `[i, j]`
whose endpoint elements lie in `[lo, hi]` and which covers every index of `S`
holding an element of `[lo, hi]` — the smallest such contiguous span.  The
spec's literal vectors hold. -/
theorem C2_amended {lo hi : Int} {S : List Int} (hS : S.Pairwise (· < ·))
    (hlohi : lo ≤ hi) :
    (range_included lo hi S = none ↔ ∀ x ∈ S, ¬(lo ≤ x ∧ x ≤ hi)) ∧
    (∀ i j, range_included lo hi S = some (i, j) →
      i ≤ j ∧ j < S.length ∧
      (lo ≤ S.getD i 0 ∧ S.getD i 0 ≤ hi) ∧ (lo ≤ S.getD j 0 ∧ S.getD j 0 ≤ hi) ∧
      ∀ k, k < S.length → lo ≤ S.getD k 0 → S.getD k 0 ≤ hi → i ≤ k ∧ k ≤ j) ∧
    range_included 0 0 [1, 2, 3] = none ∧
    range_included 1 1 [1, 2, 3] = some (0, 0) ∧
    range_included 0 4 [1, 2, 6] = some (0, 1) :=
  ⟨range_included_none_iff hS hlohi,
   fun _ _ h => range_included_some_spec hS hlohi h,
   by decide, by decide, by decide⟩

/-- C2 witness: the amended theorem applied at `lo = 0`, `hi = 4`,
`S = [1, 2, 6]`. -/
theorem C2_amended_witness : range_included 0 0 [1, 2, 3] = none :=
  (@C2_amended 0 4 [1, 2, 6] (by decide) (by decide)).2.2.1

/-- A container holding one data blob with a single accepted way referencing
point id 42, and no point records at all. -/
def c1ce : List Blob :=
  [{ btype := .OsmData,
     decode := .ok { groups := [{ ways := [{ id := 1, tags := [], refs := [42] }],
                                  nodes := [], dense_nodes := [] }] } }]

/-- C1 counterexample: a successful query accepts a way referencing point id
42, yet fires zero point callbacks, because no point record with that id
exists in the container — so the callback is not invoked exactly once per
distinct referenced point id. -/
theorem C1_counterexample :
    (read_ways_and_deps (IndexedReader.new c1ce) (fun _ => true)).err = none ∧
    (∃ w, Element.way w ∈ (read_ways_and_deps (IndexedReader.new c1ce) (fun _ => true)).emitted ∧
      (42 : Int) ∈ w.refs) ∧
    (read_ways_and_deps (IndexedReader.new c1ce) (fun _ => true)).emitted.filter isPointElem
      = [] := by
  refine ⟨rfl, ⟨{ id := 1, tags := [], refs := [42] }, ?_, ?_⟩, rfl⟩
  · decide
  · decide

/-- C1 (amended: point callbacks are per matching point record, not per
referenced id): a successful query on a fresh reader invokes the callback
exactly once per accepted way, in container order, followed by exactly once
per point record of the container whose id appears in the reference list of at
least one accepted way, in container order — hence exactly once per distinct
referenced id precisely when the container holds exactly one point record with
that id. -/
theorem C1_amended {c : List Blob} {f : Way → Bool}
    (h : (read_ways_and_deps (IndexedReader.new c) f).err = none) :
    (read_ways_and_deps (IndexedReader.new c) f).emitted =
      (containerAcceptedWays c f).map .way ++
        containerPointsIn c (sortDedup (containerRefs c f)) ∧
    ∀ x : Int, x ∈ sortDedup (containerRefs c f) ↔
      ∃ w ∈ containerAcceptedWays c f, x ∈ w.refs := by
  have hp : (pass1 c f (usedIndex (IndexedReader.new c))).err = none :=
    pass1_err_of_read_err h
  obtain ⟨hem, -⟩ := @read_success_spec c (IndexedReader.new c) f rfl (Or.inl rfl) hp
  refine ⟨?_, fun x => mem_sortDedup_containerRefs c f x⟩
  rw [hem, containerWayElems_eq]

/-- A well-formed container: one accepted way referencing ids 1 and 2, one
plain node with id 1 and one dense node with id 2. -/
def c1w : List Blob :=
  [{ btype := .OsmData,
     decode := .ok { groups := [{ ways := [{ id := 7, tags := [], refs := [1, 2] }],
                                  nodes := [{ id := 1 }],
                                  dense_nodes := [{ id := 2 }] }] } }]

/-- C1 witness: the amended theorem applied to a concrete successful query. -/
theorem C1_amended_witness :
    (read_ways_and_deps (IndexedReader.new c1w) (fun _ => true)).emitted =
      (containerAcceptedWays c1w (fun _ => true)).map .way ++
        containerPointsIn c1w (sortDedup (containerRefs c1w (fun _ => true))) :=
  (@C1_amended c1w (fun _ => true) rfl).1

/-- A container whose only blob is a data blob that fails to decode. -/
def c10bad : List Blob := [{ btype := .OsmData, decode := .error "bad" }]

/-- C10 counterexample: with a predicate rejecting every way but a container
whose record-batch block cannot be decoded, `read_ways_and_deps` does not
succeed — pass 1 decodes every record-batch block regardless of the
predicate, so the claim's unconditional success fails. -/
theorem C10_counterexample :
    (∀ w : Way, (fun _ : Way => false) w = false) ∧
    (read_ways_and_deps (IndexedReader.new c10bad) (fun _ => false)).err = some "bad" :=
  ⟨fun _ => rfl, rfl⟩

/-- C10 (amended: on a container whose record-batch blocks all decode): a
query whose predicate rejects every way succeeds with zero callbacks and
decodes no block in pass 2; the working id set is empty, and on the empty
sequence every interval query answers `none` because both binary searches
yield insertion point 0. -/
theorem C10_amended {c : List Blob} {f : Way → Bool}
    (hdec : ∀ blob ∈ c, simpleType blob.btype = .Primitive → ∃ b, blob.decode = .ok b)
    (hf : ∀ w, f w = false) :
    (read_ways_and_deps (IndexedReader.new c) f).emitted = [] ∧
    (read_ways_and_deps (IndexedReader.new c) f).err = none ∧
    (read_ways_and_deps (IndexedReader.new c) f).decoded2 = [] ∧
    sortDedup (pass1 c f (usedIndex (IndexedReader.new c))).node_ids = [] ∧
    (∀ lo hi : Int, range_included lo hi [] = none) ∧
    (∀ x : Int, binary_search [] x = .error 0) := by
  have hp : (pass1 c f (create_index c)).err = none := by
    cases hp0 : (pass1 c f (create_index c)).err with
    | none => rfl
    | some e =>
      obtain ⟨k, hk, -, -, -, -, -, herr⟩ := pass1_split c f (create_index c)
      obtain ⟨info, hget, hbt, hferr⟩ := herr e hp0
      rw [create_index_get?] at hget
      cases hcg : c.get? k with
      | none =>
        rw [hcg] at hget
        cases hget
      | some blob =>
        rw [hcg] at hget
        have hinfo : info = { offset := k, blob_type := simpleType blob.btype, id_ranges := none } :=
          (Option.some.inj hget).symm
        subst hinfo
        obtain ⟨b, hb⟩ := hdec blob (List.get?_mem hcg) hbt
        have hf2 : fetchBlock c k = .ok b := by
          unfold fetchBlock
          rw [hcg]
          exact hb
        rw [hf2] at hferr
        cases hferr
  have hinfoRefs : ∀ info, infoRefs c f info = [] := by
    intro info
    unfold infoRefs
    split
    · cases hfetch : fetchBlock c info.offset with
      | ok b =>
        show blockCollectedRefs f b = []
        unfold blockCollectedRefs blockAcceptedWays groupAcceptedWays
        have hflt : ∀ g : PrimitiveGroup, g.ways.filter f = [] := fun g =>
          List.filter_eq_nil_iff.mpr fun w _ => by simp [hf w]
        rw [List.flatMap_eq_nil_iff.mpr fun g _ => hflt g]
        rfl
      | error e => rfl
    · rfl
  have hinfoElems : ∀ info, infoWayElems c f info = [] := by
    intro info
    unfold infoWayElems
    split
    · cases hfetch : fetchBlock c info.offset with
      | ok b =>
        show blockWayElems f b = []
        unfold blockWayElems blockAcceptedWays groupAcceptedWays
        have hflt : ∀ g : PrimitiveGroup, g.ways.filter f = [] := fun g =>
          List.filter_eq_nil_iff.mpr fun w _ => by simp [hf w]
        rw [List.flatMap_eq_nil_iff.mpr fun g _ => hflt g]
        rfl
      | error e => rfl
    · rfl
  have hrefs : pass1Refs c f (create_index c) = [] := by
    unfold pass1Refs
    exact List.flatMap_eq_nil_iff.mpr fun info _ => hinfoRefs info
  have helems : pass1Elems c f (create_index c) = [] := by
    unfold pass1Elems
    exact List.flatMap_eq_nil_iff.mpr fun info _ => hinfoElems info
  obtain ⟨hidx, hids, hem, -⟩ := pass1_success hp
  have hS0 : sortDedup (pass1 c f (create_index c)).node_ids = [] := by
    rw [hids, hrefs]
    rfl
  have hEM0 : (pass1 c f (create_index c)).emitted = [] := by
    rw [hem, helems]
  have hp' : (pass1 (IndexedReader.new c).container f
      (usedIndex (IndexedReader.new c))).err = none := hp
  rw [read_of_pass1_ok hp']
  refine ⟨?_, ?_, ?_, ?_, fun lo hi => range_included_nil lo hi, fun x => binary_search_nil x⟩
  · show (pass1 c f (create_index c)).emitted ++
      (pass2 c (sortDedup (pass1 c f (create_index c)).node_ids)
        (pass1 c f (create_index c)).index).emitted = []
    rw [hEM0, hS0, pass2_nil_ids]
    rfl
  · show (pass2 c (sortDedup (pass1 c f (create_index c)).node_ids)
      (pass1 c f (create_index c)).index).err = none
    rw [hS0, pass2_nil_ids]
  · show (pass2 c (sortDedup (pass1 c f (create_index c)).node_ids)
      (pass1 c f (create_index c)).index).decoded = []
    rw [hS0, pass2_nil_ids]
  · exact hS0

/-- A decodable container with one rejected way and one point record. -/
def c10w : List Blob :=
  [{ btype := .OsmData,
     decode := .ok { groups := [{ ways := [{ id := 3, tags := [], refs := [9] }],
                                  nodes := [{ id := 9 }], dense_nodes := [] }] } }]

/-- C10 witness: the amended theorem applied to a concrete container. -/
theorem C10_amended_witness :
    (read_ways_and_deps (IndexedReader.new c10w) (fun _ => false)).emitted = [] ∧
    (read_ways_and_deps (IndexedReader.new c10w) (fun _ => false)).err = none ∧
    (read_ways_and_deps (IndexedReader.new c10w) (fun _ => false)).decoded2 = [] := by
  have h := @C10_amended c10w (fun _ => false)
    (fun blob hb _ => by
      unfold c10w at hb
      rw [List.mem_singleton] at hb
      subst hb
      exact ⟨{ groups := [{ ways := [{ id := 3, tags := [], refs := [9] }],
                            nodes := [{ id := 9 }], dense_nodes := [] }] }, rfl⟩)
    (fun _ => rfl)
  exact ⟨h.1, h.2.1, h.2.2.1⟩

theorem way_point_disjoint {e : Element} (h1 : isWayElem e = true)
    (h2 : isPointElem e = true) : False := by
  cases e <;> simp [isWayElem, isPointElem] at h1 h2

theorem elemWay_eq_some {e : Element} {w : Way} (h : elemWay e = some w) : e = .way w := by
  cases e with
  | way w' => exact congrArg Element.way (Option.some.inj h)
  | node n => cases h
  | dense_node d => cases h

/-- C3: every Node/DenseNode handed to the callback carries an id that belongs
to the working id set collected in pass 1 — an id referenced by at least one
accepted (emitted) way; no other point id is ever delivered, on any reader
state and any query outcome. -/
theorem C3_theorem (r : IndexedReader) (f : Way → Bool) :
    ∀ e ∈ (read_ways_and_deps r f).emitted, isPointElem e = true →
      ∃ n, elemPointId e = some n ∧
        n ∈ sortDedup (pass1 r.container f (usedIndex r)).node_ids ∧
        ∃ w, Element.way w ∈ (read_ways_and_deps r f).emitted ∧ n ∈ w.refs := by
  intro e he hpt
  cases hp : (pass1 r.container f (usedIndex r)).err with
  | some e0 =>
    exfalso
    obtain ⟨k, -, -, -, hem, -, -, -⟩ := pass1_split r.container f (usedIndex r)
    have h0 : (read_ways_and_deps r f).emitted =
        (pass1 r.container f (usedIndex r)).emitted := by
      rw [read_of_pass1_err hp]
    rw [h0, hem] at he
    exact way_point_disjoint (pass1Elems_ways _ _ _ e he) hpt
  | none =>
    have h0 : (read_ways_and_deps r f).emitted =
        (pass1 r.container f (usedIndex r)).emitted ++
          (pass2 r.container (sortDedup (pass1 r.container f (usedIndex r)).node_ids)
            (pass1 r.container f (usedIndex r)).index).emitted := by
      rw [read_of_pass1_ok hp]
    rw [h0] at he
    rcases List.mem_append.mp he with h1 | h1
    · exfalso
      obtain ⟨-, -, hem, -⟩ := pass1_success hp
      rw [hem] at h1
      exact way_point_disjoint (pass1Elems_ways _ _ _ e h1) hpt
    · obtain ⟨n, hn, hnS⟩ := pass2_sound _ _ _ e h1
      refine ⟨n, hn, hnS, ?_⟩
      have hn2 : n ∈ (pass1 r.container f (usedIndex r)).node_ids := mem_sortDedup.mp hnS
      rw [pass1_node_ids_from_ways] at hn2
      obtain ⟨w, hw, hnr⟩ := List.mem_flatMap.mp hn2
      obtain ⟨ew, hew, hewEq⟩ := List.mem_filterMap.mp hw
      refine ⟨w, ?_, hnr⟩
      rw [h0, ← elemWay_eq_some hewEq]
      exact List.mem_append_left _ hew

/-- A container with a way referencing point 5 plus the matching node. -/
def c3w : List Blob :=
  [{ btype := .OsmData,
     decode := .ok { groups := [{ ways := [{ id := 2, tags := [], refs := [5] }],
                                  nodes := [{ id := 5 }], dense_nodes := [] }] } }]

/-- C3 witness: the delivered node 5 is in the working set and referenced by an
emitted way. -/
theorem C3_witness :
    ∃ n, elemPointId (Element.node { id := 5 }) = some n ∧
      n ∈ sortDedup (pass1 (IndexedReader.new c3w).container (fun _ => true)
        (usedIndex (IndexedReader.new c3w))).node_ids ∧
      ∃ w, Element.way w ∈ (read_ways_and_deps (IndexedReader.new c3w) (fun _ => true)).emitted ∧
        n ∈ w.refs :=
  C3_theorem (IndexedReader.new c3w) (fun _ => true) (Element.node { id := 5 })
    (by decide) (by decide)

/-- C4: the emitted sequence always splits into way callbacks followed by
point callbacks, and on success the ways are exactly the accepted ways in
container block order followed by exactly the matching point records in
container block order. -/
theorem C4_theorem {c : List Blob} {r : IndexedReader} {f : Way → Bool}
    (hr : Reachable c r) :
    (∃ w p, (read_ways_and_deps r f).emitted = w ++ p ∧
      (∀ x ∈ w, isWayElem x = true) ∧ ∀ x ∈ p, isPointElem x = true) ∧
    ((read_ways_and_deps r f).err = none →
      (read_ways_and_deps r f).emitted =
        (containerAcceptedWays c f).map .way ++
          containerPointsIn c (sortDedup (containerRefs c f))) := by
  obtain ⟨hc, hOK⟩ := reachable_spec hr
  subst hc
  constructor
  · cases hp : (pass1 r.container f (usedIndex r)).err with
    | some e0 =>
      refine ⟨(pass1 r.container f (usedIndex r)).emitted, [], ?_, ?_,
        fun x hx => absurd hx (List.not_mem_nil x)⟩
      · rw [read_of_pass1_err hp, List.append_nil]
      · intro x hx
        obtain ⟨k, -, -, -, hem, -, -, -⟩ := pass1_split r.container f (usedIndex r)
        rw [hem] at hx
        exact pass1Elems_ways _ _ _ x hx
    | none =>
      refine ⟨(pass1 r.container f (usedIndex r)).emitted,
        (pass2 r.container (sortDedup (pass1 r.container f (usedIndex r)).node_ids)
          (pass1 r.container f (usedIndex r)).index).emitted, ?_, ?_, ?_⟩
      · rw [read_of_pass1_ok hp]
      · intro x hx
        obtain ⟨-, -, hem, -⟩ := pass1_success hp
        rw [hem] at hx
        exact pass1Elems_ways _ _ _ x hx
      · exact pass2_points _ _ _
  · intro herr
    obtain ⟨hem, -⟩ := read_success_spec rfl hOK (pass1_err_of_read_err herr)
    rw [hem, containerWayElems_eq]

/-- A container with one accepted way and its two point records. -/
def c4w : List Blob :=
  [{ btype := .OsmData,
     decode := .ok { groups := [{ ways := [{ id := 4, tags := [], refs := [1, 2] }],
                                  nodes := [{ id := 1 }],
                                  dense_nodes := [{ id := 2 }] }] } }]

/-- C4 witness: the ordering theorem applied to a concrete successful query. -/
theorem C4_witness :
    (read_ways_and_deps (IndexedReader.new c4w) (fun _ => true)).emitted =
      (containerAcceptedWays c4w (fun _ => true)).map .way ++
        containerPointsIn c4w (sortDedup (containerRefs c4w (fun _ => true))) :=
  (@C4_theorem c4w (IndexedReader.new c4w) (fun _ => true) Reachable.base).2 rfl

/-- C5: after a successful pass 1 on a reachable reader, the descriptor of
every decodable record-batch block carries the attained inclusive [min, max]
bound of the block's point ids when the block has at least one point record
(whatever the prior value was), and `none` when it has none. -/
theorem C5_theorem {c : List Blob} {r : IndexedReader} {f : Way → Bool}
    (hr : Reachable c r) (hp : (pass1 c f (usedIndex r)).err = none)
    {k : Nat} {blob : Blob} {b : PrimitiveBlock}
    (hk : c.get? k = some blob) (hbt : simpleType blob.btype = .Primitive)
    (hdec : blob.decode = .ok b) :
    ∃ info, (read_ways_and_deps r f).reader.index.get? k = some info ∧
      (blockNodeIds b = [] → info.id_ranges = none) ∧
      (blockNodeIds b ≠ [] → ∃ mn mx,
        info.id_ranges =
          some { node_ids := some (mn, mx), way_ids := none, relation_ids := none } ∧
        mn ∈ blockNodeIds b ∧ mx ∈ blockNodeIds b ∧
        ∀ x ∈ blockNodeIds b, mn ≤ x ∧ x ≤ mx) := by
  obtain ⟨hc, hOK⟩ := reachable_spec hr
  subst hc
  have hlOK := usedIndex_indexOK rfl hOK
  have h1 : ((usedIndex r).get? k).map skel = (((create_index r.container).get? k).map skel) := by
    rw [← List.get?_map, ← List.get?_map, hlOK.1]
  rw [create_index_get?, hk] at h1
  cases hg0 : (usedIndex r).get? k with
  | none =>
    rw [hg0] at h1
    cases h1
  | some info₀ =>
    rw [hg0] at h1
    simp only [Option.map_some'] at h1
    have hsk0 : skel info₀ = (k, simpleType blob.btype) := Option.some.inj h1
    have hoff : info₀.offset = k := congrArg Prod.fst hsk0
    have hbt0 : info₀.blob_type = .Primitive := by
      have := congrArg Prod.snd hsk0
      rw [← hbt]
      exact this
    have hfetch : fetchBlock r.container info₀.offset = .ok b := by
      rw [hoff]
      unfold fetchBlock
      rw [hk]
      exact hdec
    have hIDX : (read_ways_and_deps r f).reader.index.get? k = some (visitInfo r.container info₀) := by
      rw [read_reader_index, (pass1_success hp).1, List.get?_map, hg0]
      rfl
    refine ⟨visitInfo r.container info₀, hIDX, ?_, ?_⟩
    · intro hempty
      rw [visitInfo_of_ok hbt0 hfetch, updateInfo_of_none (freshNodeRange_of_empty hempty)]
      rcases (hlOK.2 info₀ (List.get?_mem hg0)).2 with h2 | ⟨b', hf', -, h3⟩
      · exact h2
      · rw [hfetch] at hf'
        have hb : b = b' := Except.ok.inj hf'
        rw [← hb] at h3
        exact absurd (freshNodeRange_of_empty hempty) h3
    · intro hne
      obtain ⟨mn, mx, hfr, hmn, hmx, hbound⟩ := freshNodeRange_of_ne_empty hne
      refine ⟨mn, mx, ?_, hmn, hmx, hbound⟩
      rw [visitInfo_of_ok hbt0 hfetch, updateInfo_of_some hfr]

/-- A container with one data blob holding one node id 3. -/
def c5w : List Blob :=
  [{ btype := .OsmData,
     decode := .ok { groups := [{ ways := [], nodes := [{ id := 3 }], dense_nodes := [] }] } }]

/-- C5 witness: after a query, the one-node block's descriptor carries the
range [3, 3]. -/
theorem C5_witness :
    ∃ info, (read_ways_and_deps (IndexedReader.new c5w) (fun _ => true)).reader.index.get? 0 =
        some info ∧
      (blockNodeIds { groups := [{ ways := [], nodes := [{ id := 3 }], dense_nodes := [] }] } = [] →
        info.id_ranges = none) ∧
      (blockNodeIds { groups := [{ ways := [], nodes := [{ id := 3 }], dense_nodes := [] }] } ≠ [] →
        ∃ mn mx, info.id_ranges =
            some { node_ids := some (mn, mx), way_ids := none, relation_ids := none } ∧
          mn ∈ blockNodeIds { groups := [{ ways := [], nodes := [{ id := 3 }], dense_nodes := [] }] } ∧
          mx ∈ blockNodeIds { groups := [{ ways := [], nodes := [{ id := 3 }], dense_nodes := [] }] } ∧
          ∀ x ∈ blockNodeIds { groups := [{ ways := [], nodes := [{ id := 3 }], dense_nodes := [] }] },
            mn ≤ x ∧ x ≤ mx) :=
  @C5_theorem c5w (IndexedReader.new c5w) (fun _ => true)
    (Reachable.base) (by decide) 0
    { btype := .OsmData,
      decode := .ok { groups := [{ ways := [], nodes := [{ id := 3 }], dense_nodes := [] }] } }
    { groups := [{ ways := [], nodes := [{ id := 3 }], dense_nodes := [] }] }
    (by decide) (by decide) (by decide)

/-- C6: construction scans nothing (the index starts empty); the first query
works on a freshly built index; a query on a reader whose index is nonempty
reuses that index as-is; and no query ever changes the index's offsets or
block types. -/
theorem C6_theorem (c : List Blob) (f : Way → Bool) :
    (IndexedReader.new c).index = [] ∧
    usedIndex (IndexedReader.new c) = create_index c ∧
    (∀ r : IndexedReader, r.index ≠ [] → usedIndex r = r.index) ∧
    (∀ r : IndexedReader, (read_ways_and_deps r f).reader.index.map skel =
      (usedIndex r).map skel) := by
  refine ⟨rfl, rfl, ?_, ?_⟩
  · intro r h
    unfold usedIndex
    rw [if_neg fun hc => h (List.isEmpty_iff.mp hc)]
  · intro r
    rw [read_reader_index, pass1_index_skel]

/-- A small container for the C6 witness. -/
def c6w : List Blob :=
  [{ btype := .OsmHeader, decode := .error "header" },
   { btype := .OsmData,
     decode := .ok { groups := [{ ways := [], nodes := [{ id := 1 }], dense_nodes := [] }] } }]

/-- A reader over `c6w` whose index is already populated. -/
def r6w : IndexedReader :=
  { container := c6w,
    index := [{ offset := 0, blob_type := .Header, id_ranges := none },
              { offset := 1, blob_type := .Primitive, id_ranges := none }] }

/-- C6 witness: the laziness/reuse theorem applied at concrete inputs. -/
theorem C6_witness :
    usedIndex (IndexedReader.new c6w) = create_index c6w ∧ usedIndex r6w = r6w.index :=
  ⟨(C6_theorem c6w (fun _ => true)).2.1,
   (C6_theorem c6w (fun _ => true)).2.2.1 r6w (by decide)⟩

/-- C7: in every reachable reader state, a populated descriptor range never
carries a way-id or relation-id range: both always read as absent. -/
theorem C7_theorem {c : List Blob} {r : IndexedReader} (hr : Reachable c r) :
    ∀ info ∈ r.index, ∀ rg, info.id_ranges = some rg →
      rg.way_ids = none ∧ rg.relation_ids = none := by
  obtain ⟨-, hOK⟩ := reachable_spec hr
  intro info hi rg hrg
  rcases hOK with h | h
  · rw [h] at hi
    cases hi
  · rcases (h.2 info hi).2 with h1 | ⟨b, -, h2, -⟩
    · rw [h1] at hrg
      cases hrg
    · rw [h2] at hrg
      have h3 := Option.some.inj hrg
      rw [← h3]
      exact ⟨rfl, rfl⟩

/-- A container with one data blob holding one node id 5. -/
def c7w : List Blob :=
  [{ btype := .OsmData,
     decode := .ok { groups := [{ ways := [], nodes := [{ id := 5 }], dense_nodes := [] }] } }]

/-- C7 witness: the populated descriptor after a query over `c7w` has empty
way/relation ranges. -/
theorem C7_witness :
    ({ node_ids := some (5, 5), way_ids := none, relation_ids := none } : IdRanges).way_ids
        = none ∧
      ({ node_ids := some (5, 5), way_ids := none, relation_ids := none } : IdRanges).relation_ids
        = none :=
  C7_theorem (Reachable.step (IndexedReader.new c7w) (fun _ => true) Reachable.base)
    { offset := 0, blob_type := .Primitive,
      id_ranges := some { node_ids := some (5, 5), way_ids := none, relation_ids := none } }
    (by decide)
    { node_ids := some (5, 5), way_ids := none, relation_ids := none } rfl

/-- C8: a failing query returns a genuine fetch/decode error of the container;
the descriptors of the blocks visited before the abort carry freshly computed
values (`visitInfo`), the descriptors not yet reached retain exactly their
prior values, and the already-fired callbacks are kept: an emitted pass-1
prefix plus point callbacks of a partial pass 2. -/
theorem C8_theorem {c : List Blob} {r : IndexedReader} {f : Way → Bool} {e : Err}
    (hr : Reachable c r) (he : (read_ways_and_deps r f).err = some e) :
    (∃ off, fetchBlock c off = .error e) ∧
    ∃ k, k ≤ (usedIndex r).length ∧
      (read_ways_and_deps r f).reader.index =
        ((usedIndex r).take k).map (visitInfo c) ++ (usedIndex r).drop k ∧
      ∃ rest2, (read_ways_and_deps r f).emitted =
        pass1Elems c f ((usedIndex r).take k) ++ rest2 ∧
        ∀ x ∈ rest2, isPointElem x = true := by
  obtain ⟨hc, -⟩ := reachable_spec hr
  subst hc
  cases hp : (pass1 r.container f (usedIndex r)).err with
  | some e1 =>
    have he1 : e1 = e := by
      rw [read_of_pass1_err hp] at he
      exact Option.some.inj he
    subst he1
    obtain ⟨k, hk, hidx, -, hem, -, -, herr⟩ := pass1_split r.container f (usedIndex r)
    obtain ⟨info, -, -, hferr⟩ := herr e1 hp
    refine ⟨⟨info.offset, hferr⟩, k, hk, ?_, [], ?_, fun x hx => absurd hx (List.not_mem_nil x)⟩
    · rw [read_reader_index, hidx]
    · rw [List.append_nil]
      have h0 : (read_ways_and_deps r f).emitted =
          (pass1 r.container f (usedIndex r)).emitted := by
        rw [read_of_pass1_err hp]
      rw [h0, hem]
  | none =>
    have hp2e : (pass2 r.container (sortDedup (pass1 r.container f (usedIndex r)).node_ids)
        (pass1 r.container f (usedIndex r)).index).err = some e := by
      rw [read_of_pass1_ok hp] at he
      exact he
    obtain ⟨off, hoff⟩ := pass2_err _ _ _ e hp2e
    refine ⟨⟨off, hoff⟩, (usedIndex r).length, le_refl _, ?_,
      (pass2 r.container (sortDedup (pass1 r.container f (usedIndex r)).node_ids)
        (pass1 r.container f (usedIndex r)).index).emitted, ?_, pass2_points _ _ _⟩
    · rw [read_reader_index, (pass1_success hp).1, List.take_length, List.drop_length,
        List.append_nil]
    · rw [List.take_length]
      have h0 : (read_ways_and_deps r f).emitted =
          (pass1 r.container f (usedIndex r)).emitted ++
            (pass2 r.container (sortDedup (pass1 r.container f (usedIndex r)).node_ids)
              (pass1 r.container f (usedIndex r)).index).emitted := by
        rw [read_of_pass1_ok hp]
      rw [h0, (pass1_success hp).2.2.1]

/-- A container whose only blob fails to decode. -/
def c8w : List Blob := [{ btype := .OsmData, decode := .error "boom" }]

/-- C8 witness: the failure theorem applied to a concrete failing query. -/
theorem C8_witness :
    (∃ off, fetchBlock c8w off = .error "boom") ∧
    ∃ k, k ≤ (usedIndex (IndexedReader.new c8w)).length ∧
      (read_ways_and_deps (IndexedReader.new c8w) (fun _ => true)).reader.index =
        ((usedIndex (IndexedReader.new c8w)).take k).map (visitInfo c8w) ++
          (usedIndex (IndexedReader.new c8w)).drop k ∧
      ∃ rest2, (read_ways_and_deps (IndexedReader.new c8w) (fun _ => true)).emitted =
        pass1Elems c8w (fun _ => true) ((usedIndex (IndexedReader.new c8w)).take k) ++ rest2 ∧
        ∀ x ∈ rest2, isPointElem x = true :=
  C8_theorem Reachable.base rfl

/-- C9: after a successful first query, a second query with another predicate
emits exactly the callback sequence (and final outcome) it would emit on a
freshly constructed reader over the same container. -/
theorem C9_theorem {c : List Blob} {f g : Way → Bool}
    (h1 : (read_ways_and_deps (IndexedReader.new c) f).err = none) :
    (read_ways_and_deps (read_ways_and_deps (IndexedReader.new c) f).reader g).emitted =
      (read_ways_and_deps (IndexedReader.new c) g).emitted ∧
    (read_ways_and_deps (read_ways_and_deps (IndexedReader.new c) f).reader g).err =
      (read_ways_and_deps (IndexedReader.new c) g).err := by
  have hr : Reachable c (read_ways_and_deps (IndexedReader.new c) f).reader :=
    Reachable.step (IndexedReader.new c) f Reachable.base
  obtain ⟨hc, hOK⟩ := reachable_spec hr
  obtain ⟨ha, hb, -⟩ := read_eq_fresh hc hOK g
  exact ⟨ha, hb⟩

/-- A container with a tagged way, an untagged way and their point records. -/
def c9w : List Blob :=
  [{ btype := .OsmData,
     decode := .ok { groups := [{ ways := [{ id := 1, tags := [("a", "b")], refs := [10] },
                                           { id := 2, tags := [], refs := [11] }],
                                  nodes := [{ id := 10 }, { id := 11 }],
                                  dense_nodes := [] }] } }]

/-- C9 witness: reuse equivalence at concrete inputs — first query accepts
everything, second accepts only tagged ways. -/
theorem C9_witness :
    (read_ways_and_deps (read_ways_and_deps (IndexedReader.new c9w) (fun _ => true)).reader
        (fun w => !w.tags.isEmpty)).emitted =
      (read_ways_and_deps (IndexedReader.new c9w) (fun w => !w.tags.isEmpty)).emitted ∧
    (read_ways_and_deps (read_ways_and_deps (IndexedReader.new c9w) (fun _ => true)).reader
        (fun w => !w.tags.isEmpty)).err =
      (read_ways_and_deps (IndexedReader.new c9w) (fun w => !w.tags.isEmpty)).err :=
  C9_theorem rfl

end Osmpbf
